import Mathlib

/-!
# Verification of the Rightmove property-scraper extraction pipeline

This file gives a shallow embedding, in Lean 4, of the extraction and
normalization pipeline implemented in `src/main.js` of the scraper, and
proves (or refutes) the specified properties of that pipeline.

Conventions of the embedding:

* JavaScript `null` and `undefined` are both modelled by `Option.none`
  wherever the source code treats them identically; when the distinction
  matters (`Number(null) = 0` but `Number(undefined) = NaN`) the richer
  type `JVal` below keeps them apart.
* JavaScript numbers are modelled by `ℚ`; the pipeline only performs
  additions and multiplications that are exact on the doubles it
  manipulates, so no rounding behaviour is lost for the values at stake.
* Strings are Lean `String`s; the JS `\s` character class is modelled by
  `isJsWs` below, covering the ECMAScript WhiteSpace and LineTerminator
  sets.
-/

namespace Rightmove

/-- The ECMAScript `\s` class (WhiteSpace ∪ LineTerminator), used by
`String.replace(/\s+/g, ' ')` and `String.trim()` in `cleanText`. -/
def isJsWs (c : Char) : Bool :=
  c = ' ' || c = '\t' || c = '\n' || c = '\r' ||
  c = '\u000B' || c = '\u000C' ||
  c = '\u00A0' || c = '\u1680' ||
  ('\u2000' ≤ c && c ≤ '\u200A') ||
  c = '\u2028' || c = '\u2029' || c = '\u202F' || c = '\u205F' ||
  c = '\u3000' || c = '\uFEFF'

/-- `replace(/\s+/g, ' ')`, one character at a time: the flag records
whether we are inside a whitespace run whose single `' '` has already
been emitted. Every maximal run of whitespace becomes one space. -/
def collapseWsGo : Bool → List Char → List Char
  | _, [] => []
  | inRun, c :: rest =>
    if isJsWs c then
      if inRun then collapseWsGo true rest
      else ' ' :: collapseWsGo true rest
    else c :: collapseWsGo false rest

/-- `replace(/\s+/g, ' ')`: every maximal run of whitespace becomes a
single space. -/
def collapseWs (l : List Char) : List Char := collapseWsGo false l

/-- `String.trim()` on a character list: drop leading and trailing
JS whitespace. -/
def trimWs (l : List Char) : List Char :=
  ((l.dropWhile isJsWs).reverse.dropWhile isJsWs).reverse

/-- Core of `cleanText`: collapse whitespace runs, then trim. -/
def cleanChars (l : List Char) : List Char :=
  trimWs (collapseWs l)

/-- `cleanText` on an actual string: the cleaned string, or `none` if the
result is empty (the JS function returns `null` then). -/
def cleanTextStr (s : String) : Option String :=
  let cleaned := String.mk (cleanChars s.data)
  if cleaned.length > 0 then some cleaned else none

/-- `cleanText(text)` from `main.js`: `null`/`undefined` map to `null`;
otherwise whitespace runs collapse to one space, the result is trimmed,
and an empty result becomes `null`. -/
def cleanText (text : Option String) : Option String :=
  text.bind cleanTextStr

/-- JS truthiness for an optional string: `null`, `undefined` and `''`
are falsy. -/
def strTruthy : Option String → Bool
  | none => false
  | some s => s ≠ ""

/-- JS `a || b` for optional strings. -/
def jsOr (a b : Option String) : Option String :=
  if strTruthy a then a else b

/-- `uniqueArray(items)` from `main.js`, over lists of possibly-null
strings: falsy entries are dropped, string entries are passed through
`cleanText` (dropped if that gives `null`), and duplicates (by cleaned
value) are dropped, keeping first-seen order. -/
def uniqueArrayGo : List (Option String) → List String → List String
  | [], _ => []
  | item :: rest, seen =>
    match item with
    | none => uniqueArrayGo rest seen
    | some s =>
      if s = "" then uniqueArrayGo rest seen
      else
        match cleanTextStr s with
        | none => uniqueArrayGo rest seen
        | some v =>
          if v ∈ seen then uniqueArrayGo rest seen
          else v :: uniqueArrayGo rest (v :: seen)

/-- `uniqueArray` on a list that may contain nulls. -/
def uniqueArrayO (items : List (Option String)) : List String :=
  uniqueArrayGo items []

/-- `uniqueArray` on a plain string list (the common call pattern). -/
def uniqueArray (items : List String) : List String :=
  uniqueArrayO (items.map some)

/-! ## Generic character-list scanning helpers (used to model the JS regexes) -/

/-- ASCII decimal digit, the `\d` class. -/
def isDigitC (c : Char) : Bool := '0' ≤ c && c ≤ '9'

/-- The JS `\w` class `[A-Za-z0-9_]`, defining word boundaries `\b`. -/
def isWordChar (c : Char) : Bool :=
  ('a' ≤ c && c ≤ 'z') || ('A' ≤ c && c ≤ 'Z') || isDigitC c || c = '_'

/-- Does `l` start with the pattern `pat`? -/
def startsWithSeq : List Char → List Char → Bool
  | [], _ => true
  | _ :: _, [] => false
  | p :: ps, c :: cs => p = c && startsWithSeq ps cs

/-- Strip the pattern `pat` from the front of `l`, if present. -/
def stripSeq : List Char → List Char → Option (List Char)
  | [], l => some l
  | _ :: _, [] => none
  | p :: ps, c :: cs => if p = c then stripSeq ps cs else none

/-- Does some position of `l` (including the empty tail) satisfy `p`? -/
def containsPred (p : List Char → Bool) : List Char → Bool
  | [] => p []
  | c :: cs => p (c :: cs) || containsPred p cs

/-- Substring containment (`String.prototype.includes`). -/
def containsSeq (pat : List Char) (l : List Char) : Bool :=
  containsPred (startsWithSeq pat) l

/-- `String.prototype.startsWith` (modelled on the character lists so
that it evaluates by kernel reduction). -/
def strStartsWith (s pat : String) : Bool :=
  startsWithSeq pat.data s.data

/-- The site's base origin, `BASE_URL` in `main.js`. -/
def BASE_URL : String := "https://www.rightmove.co.uk"

/-- `ensureAbsoluteUrl(url)` for a string argument: empty strings are
falsy and give `null`; anything starting with `"http"` is returned
unchanged; protocol-relative URLs get `"https:"`; everything else is
prefixed with the base origin (with a `/` inserted for bare paths). -/
def ensureAbsoluteUrlStr (url : String) : Option String :=
  if url = "" then none
  else if strStartsWith url "http" then some url
  else if strStartsWith url "//" then some ("https:" ++ url)
  else if strStartsWith url "/" then some (BASE_URL ++ url)
  else some (BASE_URL ++ "/" ++ url)

/-- `ensureAbsoluteUrl(url)` including the null/undefined case. -/
def ensureAbsoluteUrl (url : Option String) : Option String :=
  url.bind ensureAbsoluteUrlStr


/-! ## `parsePrice` -/

/-- A JavaScript scalar value, as stored in the dynamic record fields
where the pipeline distinguishes `null` from `undefined` and strings
from numbers (`price.amount` and `price.displayPrice`). -/
inductive JVal where
  | undef : JVal
  | null : JVal
  | num : ℚ → JVal
  | str : String → JVal
deriving DecidableEq, Repr

/-- JS truthiness of a `JVal` (`NaN` never occurs as a stored value in
the pipeline, see `normalizeProperty`). -/
def JVal.truthy : JVal → Bool
  | .undef => false
  | .null => false
  | .num q => q ≠ 0
  | .str s => s ≠ ""

/-- The `price` objects built by the pipeline:
`{ amount, currency, displayPrice }`. -/
structure Price where
  amount : JVal
  currency : Option String
  displayPrice : JVal
deriving DecidableEq, Repr

/-- Numeric value of a digit run. -/
def digitsVal (l : List Char) : ℕ :=
  l.foldl (fun acc c => 10 * acc + (c.toNat - '0'.toNat)) 0

/-- The first match of `/(\d+(?:\.\d+)?)/`: the integer digits and the
(fractional) digits after an optional dot. -/
def firstNumToken : List Char → Option (List Char × List Char)
  | [] => none
  | c :: rest =>
    if isDigitC c then
      let ip := (c :: rest).takeWhile isDigitC
      let rest1 := (c :: rest).dropWhile isDigitC
      match rest1 with
      | '.' :: r2 =>
        if (r2.head?.elim false isDigitC) then some (ip, r2.takeWhile isDigitC)
        else some (ip, [])
      | _ => some (ip, [])
    else firstNumToken rest

/-- `parseFloat` of a matched numeric token, exactly. -/
def tokenVal (ip fp : List Char) : ℚ :=
  (digitsVal ip : ℚ) + (digitsVal fp : ℚ) / ((10 : ℚ) ^ fp.length)

/-- `/\b\d+(?:\.\d+)?\s*u\b/` tested at the current position (which must
start with a digit); `prev` is the character before the position. -/
def unitHere (unit : Char) (prev : Option Char) (l : List Char) : Bool :=
  (match prev with | none => true | some p => !isWordChar p) &&
  (match l with
   | c :: _ =>
     if isDigitC c then
       let rest1 := l.dropWhile isDigitC
       let rest2 :=
         match rest1 with
         | '.' :: r2 => if (r2.head?.elim false isDigitC) then r2.dropWhile isDigitC else rest1
         | _ => rest1
       let rest3 := rest2.dropWhile isJsWs
       match rest3 with
       | u :: r4 => u = unit && (match r4.head? with | none => true | some n => !isWordChar n)
       | [] => false
     else false
   | [] => false)

/-- Scan of `/\b\d+(?:\.\d+)?\s*u\b/i.test(lower)` over all positions. -/
def hasUnitSuffix (unit : Char) : Option Char → List Char → Bool
  | _, [] => false
  | prev, c :: cs => unitHere unit prev (c :: cs) || hasUnitSuffix unit (some c) cs

/-- `parsePrice(priceText)` from `main.js`: strip commas, take the first
numeric token (else return null), scale by 1e6 on a `million`/`m`
suffix, else by 1e3 on a `k` suffix; currency is always `"GBP"` and
`displayPrice` is the cleaned original text. -/
def parsePrice (priceText : Option String) : Option Price :=
  match priceText with
  | none => none
  | some s =>
    if s = "" then none
    else
      let normalized := s.data.filter (fun c => c ≠ ',')
      match firstNumToken normalized with
      | none => none
      | some (ip, fp) =>
        let base := tokenVal ip fp
        let lower := normalized.map Char.toLower
        let amount :=
          if hasUnitSuffix 'm' none lower || containsSeq "million".data lower then
            base * 1000000
          else if hasUnitSuffix 'k' none lower then base * 1000
          else base
        some { amount := .num amount
               currency := some "GBP"
               displayPrice :=
                 match cleanTextStr s with
                 | some t => .str t
                 | none => .null }

/-! ## `inferPropertyType` / `PROPERTY_TYPE_PATTERNS` -/

/-- `/semi[-\s]?detached/i` tested at the current position of the
lowercased text. -/
def semiDetachedHere (l : List Char) : Bool :=
  match stripSeq "semi".data l with
  | none => false
  | some r =>
    startsWithSeq "detached".data r ||
      (match r with
       | c :: r2 => (c = '-' || isJsWs c) && startsWithSeq "detached".data r2
       | [] => false)

/-- `/\bw\b/i` tested over the whole lowercased text: some occurrence of
`w` delimited by word boundaries. -/
def containsWordFrom (w : List Char) : Option Char → List Char → Bool
  | _, [] => false
  | prev, c :: cs =>
    ((match prev with | none => true | some p => !isWordChar p) &&
     (match stripSeq w (c :: cs) with
      | some r => match r.head? with | none => true | some n => !isWordChar n
      | none => false)) ||
    containsWordFrom w (some c) cs

/-- `PROPERTY_TYPE_PATTERNS` from `main.js`: the ordered rule list, most
specific first; each entry pairs the regex test (as a Boolean matcher on
the lowercased text) with the produced taxonomy value. -/
def PROPERTY_TYPE_PATTERNS : List ((List Char → Bool) × String) :=
  [ (containsPred semiDetachedHere, "Semi-Detached"),
    (containsWordFrom "detached".data none, "Detached"),
    (containsWordFrom "terraced".data none, "Terraced"),
    (containsWordFrom "bungalow".data none, "Bungalow"),
    (containsWordFrom "maisonette".data none, "Maisonette"),
    (containsWordFrom "apartment".data none, "Apartment"),
    (containsWordFrom "flat".data none, "Flat"),
    (containsWordFrom "studio".data none, "Studio"),
    (containsWordFrom "duplex".data none, "Duplex"),
    (containsWordFrom "penthouse".data none, "Penthouse"),
    (containsWordFrom "house".data none, "House") ]

/-- `inferPropertyType(text)` from `main.js`: the value of the first
pattern that matches, or null when none does (or the text is falsy). -/
def inferPropertyType (text : Option String) : Option String :=
  match text with
  | none => none
  | some s =>
    if s = "" then none
    else
      let lower := s.data.map Char.toLower
      (PROPERTY_TYPE_PATTERNS.find? (fun pr => pr.1 lower)).map (fun pr => pr.2)

/-! ## Input limit clamping (`maxResults` / `maxPages`) -/

/-- The result of `Number(raw)` on a raw configuration value: either a
finite number or `NaN` (from non-numeric input). -/
inductive JNumIn where
  | nanv : JNumIn
  | val : ℚ → JNumIn
deriving DecidableEq, Repr

/-- `Math.min(Math.max(Number(raw) || dflt, lo), hi)` with the
destructuring default `dflt` for a missing key, translated from
`main.js` lines 1022-1028. -/
def effLimit (dflt lo hi : ℚ) (raw : Option JNumIn) : ℚ :=
  let n : JNumIn := match raw with | none => .val dflt | some x => x
  let v : ℚ := match n with | .nanv => dflt | .val q => if q = 0 then dflt else q
  min (max v lo) hi

/-- The effective `maxResults` limit. -/
def effMaxResults (raw : Option JNumIn) : ℚ := effLimit 50 1 1000 raw

/-- The effective `maxPages` limit. -/
def effMaxPages (raw : Option JNumIn) : ℚ := effLimit 5 1 50 raw


/-! ## The property record, `mergePropertyData` and `normalizeProperty` -/

/-- Agent/branch contact object (`{name, phone, address, website}`);
a `none` field models an absent or null key. -/
structure AgentDetails where
  name : Option String := none
  phone : Option String := none
  address : Option String := none
  website : Option String := none
deriving DecidableEq, Repr

/-- A JS object used as a string-to-string mapping, with its insertion
order; keys are unique in every map the pipeline builds. -/
abbrev DetailsMap := List (String × String)

/-- JS property assignment `m[k] = v`: update in place if the key
exists, else append. -/
def objInsert (m : DetailsMap) (k v : String) : DetailsMap :=
  if m.any (fun kv => kv.1 = k) then
    m.map (fun kv => if kv.1 = k then (k, v) else kv)
  else m ++ [(k, v)]

/-- JS object spread `{...a, ...b}`: start from `a`, assign every entry
of `b` (so `b` wins on conflicts, and `a`'s key order is kept). -/
def objSpread (a b : DetailsMap) : DetailsMap :=
  b.foldl (fun acc kv => objInsert acc kv.1 kv.2) a

/-- The (partial) listing record passed between the extraction passes,
with exactly the dynamic fields `main.js` reads or writes; `none`
models an absent/null/undefined field. -/
@[ext]
structure Property where
  propertyId : Option String := none
  url : Option String := none
  address : Option String := none
  title : Option String := none
  description : Option String := none
  propertyType : Option String := none
  bedrooms : Option ℚ := none
  bathrooms : Option ℚ := none
  agent : Option String := none
  agentDetails : Option AgentDetails := none
  price : Option Price := none
  image : Option String := none
  images : Option (List String) := none
  floorplans : Option (List String) := none
  keyFeatures : Option (List String) := none
  features : Option (List String) := none
  details : Option DetailsMap := none
  extractionMethod : Option String := none
  isNewHome : Option Bool := none
deriving DecidableEq, Repr

/-- `setIfMissing` of `mergePropertyData` for a string field: skip a
null/undefined value; fill only when the accumulator holds
null/undefined or the empty string. -/
def setIfMissingStr (base extra : Option String) : Option String :=
  match extra with
  | none => base
  | some v =>
    match base with
    | none => some v
    | some b => if b = "" then some v else base

/-- `setIfMissing` for a numeric field (only null/undefined count as
missing; `0` is kept). -/
def setIfMissingNum (base extra : Option ℚ) : Option ℚ :=
  match extra with
  | none => base
  | some v =>
    match base with
    | none => some v
    | some _ => base

/-- `setIfMissing` for the nested agent object. -/
def setIfMissingAgent (base extra : Option AgentDetails) : Option AgentDetails :=
  match extra with
  | none => base
  | some v =>
    match base with
    | none => some v
    | some _ => base

/-- The dedicated price rule of `mergePropertyData`: the extra price is
taken when the accumulator has no price, or a price whose `amount` and
`displayPrice` are both falsy. -/
def mergePrice (base extra : Option Price) : Option Price :=
  match extra with
  | none => base
  | some e =>
    match base with
    | none => some e
    | some b =>
      if !b.amount.truthy && !b.displayPrice.truthy then some e else base

/-- `mergePropertyData(base, extra)` from `main.js`: first-writer-wins
for the scalar fields, the special price rule, union+dedup for the list
fields, and key-by-key merge (accumulator wins) for `details`. Fields
outside its explicit list (`propertyId`, `url`, `image`, `features`,
`extractionMethod`, `isNewHome`) are kept from the accumulator. -/
def mergePropertyData (base extra : Property) : Property :=
  { base with
    address := setIfMissingStr base.address extra.address
    title := setIfMissingStr base.title extra.title
    description := setIfMissingStr base.description extra.description
    propertyType := setIfMissingStr base.propertyType extra.propertyType
    bedrooms := setIfMissingNum base.bedrooms extra.bedrooms
    bathrooms := setIfMissingNum base.bathrooms extra.bathrooms
    agent := setIfMissingStr base.agent extra.agent
    agentDetails := setIfMissingAgent base.agentDetails extra.agentDetails
    price := mergePrice base.price extra.price
    images :=
      match extra.images with
      | none => base.images
      | some ex => some (uniqueArray (base.images.getD [] ++ ex))
    floorplans :=
      match extra.floorplans with
      | none => base.floorplans
      | some ex => some (uniqueArray (base.floorplans.getD [] ++ ex))
    keyFeatures :=
      match extra.keyFeatures with
      | none => base.keyFeatures
      | some ex => some (uniqueArray (base.keyFeatures.getD [] ++ ex))
    details :=
      match extra.details with
      | none => base.details
      | some ex => some (objSpread ex (base.details.getD [])) }

/-! ## `normalizeProperty` -/

/-- `Number(string)`: trimmed empty input is `0`; an optional sign,
decimal digits with optional fraction and exponent parse exactly;
anything else is `NaN` (`none`). Hexadecimal/binary literals are not
modelled (the pipeline never produces them). -/
def jsStrToNum (s : String) : Option ℚ :=
  let l := (((s.data.dropWhile isJsWs).reverse.dropWhile isJsWs).reverse)
  if l = [] then some 0
  else
    let signAndRest : ℚ × List Char :=
      match l with
      | '-' :: r => (-1, r)
      | '+' :: r => (1, r)
      | _ => (1, l)
    let sign := signAndRest.1
    let l1 := signAndRest.2
    let ip := l1.takeWhile isDigitC
    let r1 := l1.dropWhile isDigitC
    let fpAndRest : List Char × List Char :=
      match r1 with
      | '.' :: rr => (rr.takeWhile isDigitC, rr.dropWhile isDigitC)
      | _ => ([], r1)
    let fp := fpAndRest.1
    let r2 := fpAndRest.2
    if ip = [] && fp = [] then none
    else
      let mant : ℚ := (digitsVal ip : ℚ) + (digitsVal fp : ℚ) / (10 : ℚ) ^ fp.length
      match r2 with
      | [] => some (sign * mant)
      | 'e' :: rr => jsExponent sign mant rr
      | 'E' :: rr => jsExponent sign mant rr
      | _ => none
where
  jsExponent (sign mant : ℚ) (rr : List Char) : Option ℚ :=
    let esignAndRest : Bool × List Char :=
      match rr with
      | '-' :: r => (true, r)
      | '+' :: r => (false, r)
      | _ => (false, rr)
    let ed := esignAndRest.2.takeWhile isDigitC
    if ed = [] || esignAndRest.2.dropWhile isDigitC ≠ [] then none
    else
      let e := digitsVal ed
      some (sign * mant * (if esignAndRest.1 then ((10 : ℚ) ^ e)⁻¹ else (10 : ℚ) ^ e))

/-- `Number(value)` on the scalar values the pipeline stores; `none`
models `NaN`. -/
def jsToNumber : JVal → Option ℚ
  | .undef => none
  | .null => some 0
  | .num q => some q
  | .str s => jsStrToNum s

/-- `String(number)`: a whitespace-free deterministic rendering of the
numeric value (integers print as decimal numerals). -/
def jsNumToString (q : ℚ) : String := toString q

/-- `cleanText(value)` on a scalar `JVal` (the source coerces a number
with `String(...)` before cleaning). -/
def jsValCleanText : JVal → Option String
  | .undef => none
  | .null => none
  | .num q => cleanTextStr (jsNumToString q)
  | .str s => cleanTextStr s

/-- The agent-details cleaning loop of `normalizeProperty`: each entry
is cleaned, empty entries are dropped, and an empty result becomes
null. -/
def cleanAgentDetails (ad : AgentDetails) : Option AgentDetails :=
  let n := cleanText ad.name
  let p := cleanText ad.phone
  let a := cleanText ad.address
  let w := cleanText ad.website
  if n = none && p = none && a = none && w = none then none
  else some { name := n, phone := p, address := a, website := w }

/-- One step of the details cleaning loop of `normalizeProperty`. -/
def cleanDetailsStep (acc : DetailsMap) (kv : String × String) : DetailsMap :=
  match cleanTextStr kv.1, cleanTextStr kv.2 with
  | some k, some v => objInsert acc k v
  | _, _ => acc

/-- The details cleaning loop of `normalizeProperty`. -/
def cleanDetails (d : DetailsMap) : Option DetailsMap :=
  let cleaned := d.foldl cleanDetailsStep []
  if cleaned = [] then none else some cleaned

/-- The price coercion step of `normalizeProperty`:
`{amount: Number(amount) finite or null, currency || 'GBP',
cleanText(displayPrice) || null}`. -/
def normalizePrice (pr : Price) : Price :=
  { amount :=
      match jsToNumber pr.amount with
      | some q => JVal.num q
      | none => JVal.null
    currency := jsOr pr.currency (some "GBP")
    displayPrice :=
      match jsValCleanText pr.displayPrice with
      | some t => JVal.str t
      | none => JVal.null }

/-- `normalizeProperty(property)` from `main.js`: clean all text
fields, re-infer the property type when unset, clean the agent object,
re-absolutize and dedupe the URL lists, clean the details mapping, and
coerce the price to `{amount: number|null, currency, displayPrice}`. -/
def normalizeProperty (p : Property) : Property :=
  let address := cleanText p.address
  let title := jsOr (cleanText p.title) address
  let description := cleanText p.description
  let propertyType0 := cleanText p.propertyType
  let propertyType :=
    match propertyType0 with
    | some t => some t
    | none =>
      inferPropertyType
        (some ((title.getD "") ++ " " ++ (description.getD "") ++ " " ++ (address.getD "")))
  let agentDetails :=
    match p.agentDetails with
    | none => p.agentDetails
    | some ad => cleanAgentDetails ad
  let agent :=
    jsOr (cleanText p.agent)
      (match agentDetails with | some ad => ad.name | none => none)
  let images := p.images.map (fun l => uniqueArrayO (l.map ensureAbsoluteUrlStr))
  let floorplans := p.floorplans.map (fun l => uniqueArrayO (l.map ensureAbsoluteUrlStr))
  let keyFeatures := p.keyFeatures.map uniqueArray
  let features := p.features.map uniqueArray
  let details :=
    match p.details with
    | none => p.details
    | some d => cleanDetails d
  let price :=
    match p.price with
    | none => p.price
    | some pr => some (normalizePrice pr)
  { p with
    address := address
    title := title
    description := description
    propertyType := propertyType
    agentDetails := agentDetails
    agent := agent
    images := images
    floorplans := floorplans
    keyFeatures := keyFeatures
    features := features
    details := details
    price := price }


/-! ## Detail-page model: `extractPropertyDetails` and the DETAIL handler -/

/-- A JSON value that is either a single string or an array of strings
(the `Array.isArray(x) ? x : [x]` pattern on the JSON-LD `image` key). -/
inductive StrOrList where
  | s : String → StrOrList
  | l : List String → StrOrList
deriving DecidableEq, Repr

/-- JS truthiness: a string is falsy when empty; an array is always
truthy. -/
def StrOrList.jsTruthy : StrOrList → Bool
  | .s v => v ≠ ""
  | .l _ => true

/-- `Array.isArray(x) ? x : [x]`. -/
def StrOrList.toArr : StrOrList → List String
  | .s v => [v]
  | .l vs => vs

/-- An `offers` entry of a JSON-LD block (`{price, priceCurrency}`);
absent keys are `undef`/`none`. -/
structure Offer where
  price : JVal := JVal.undef
  priceCurrency : Option String := none
deriving DecidableEq, Repr

/-- `propertyJsonLd.offers`: a single offer object or an array of them
(the code takes `offers[0]` when it is an array). -/
inductive OffersVal where
  | one : Offer → OffersVal
  | arr : List Offer → OffersVal
deriving DecidableEq, Repr

/-- A parsed JSON-LD block, carrying the fields `extractPropertyDetails`
reads; `none` models an absent key. -/
structure JsonLdBlock where
  atType : Option String := none
  name : Option String := none
  description : Option String := none
  image : Option StrOrList := none
  offers : Option OffersVal := none
deriving DecidableEq, Repr

/-- The `jsonLdData.find(...)` predicate: `@type` is one of `Product`,
`RealEstateListing`, `Apartment`, `House`. -/
def isPropertyJsonLd (d : JsonLdBlock) : Bool :=
  d.atType = some "Product" || d.atType = some "RealEstateListing" ||
    d.atType = some "Apartment" || d.atType = some "House"

/-- The net effect of one embedded-JSON blob: `findPropertyPayload`
found nothing, the extracted partial had no keys, or a partial record
was produced. -/
inductive EmbedResult where
  | noPayload : EmbedResult
  | emptyExtract : EmbedResult
  | extract : Property → EmbedResult
deriving DecidableEq, Repr

/-- The `for (const embedded of embeddedData)` loop of
`extractPropertyDetails`: merge each non-empty extracted partial into
the accumulator and record whether any blob was used. -/
def embedLoop : Property → Bool → List EmbedResult → Property × Bool
  | pd, used, [] => (pd, used)
  | pd, used, .noPayload :: rest => embedLoop pd used rest
  | pd, used, .emptyExtract :: rest => embedLoop pd used rest
  | pd, _used, .extract e :: rest => embedLoop (mergePropertyData pd e) true rest

/-- One detail page, as the sequence of DOM/JSON reads
`extractPropertyDetails` performs on it; `crash` models an exception
thrown anywhere in the `try` body (the only way into the `catch`). -/
structure DetailPage where
  crash : Bool := false
  jsonLdBlocks : List JsonLdBlock := []
  embedded : List EmbedResult := []
  h1Text : String := ""
  descText : String := ""
  keyFeatureTexts : List String := []
  detailsHtml : DetailsMap := []
  galleryImgs : List (Option String) := []
  floorplanImgs : List (Option String) := []
  agentHtml : Option AgentDetails := none
deriving DecidableEq, Repr

/-- The key-features loop: keep cleaned item texts longer than 2
characters. -/
def collectKeyFeatures (ts : List String) : List String :=
  ts.filterMap fun t =>
    match cleanTextStr t with
    | none => none
    | some f => if 2 < f.length then some f else none

/-- The gallery-image loop: skip empty `src` values, dedup by testing
the raw `src` against the list built so far, and push the absolutized
URL (the code compares the raw `src` with already-absolutized
entries). -/
def galleryGo (acc : List String) : List (Option String) → List String
  | [] => acc
  | none :: rest => galleryGo acc rest
  | some src :: rest =>
    if src ≠ "" && !acc.contains src then
      galleryGo (acc ++ (ensureAbsoluteUrlStr src).toList) rest
    else galleryGo acc rest

/-- The floorplan-image loop: absolutize every non-empty `src`, no
dedup. -/
def floorplanFold (srcs : List (Option String)) : List String :=
  srcs.foldl
    (fun acc s =>
      match s with
      | none => acc
      | some src => if src ≠ "" then acc ++ (ensureAbsoluteUrlStr src).toList else acc)
    []

/-- `getDetailValue(details, keywords)` from `main.js`: the first value
whose lowercased key contains one of the keywords. -/
def getDetailValue (details : Option DetailsMap) (keywords : List String) : Option String :=
  match details with
  | none => none
  | some d =>
    (d.find? fun kv =>
        keywords.any fun kw => containsSeq kw.data (kv.1.data.map Char.toLower)).map
      Prod.snd

/-- The `if (propertyJsonLd) { ... }` block: fold the JSON-LD fields
into the accumulator. -/
def applyJsonLd (pd0 : Property) (j : JsonLdBlock) : Property :=
  let pd1 := if strTruthy j.name then { pd0 with title := j.name } else pd0
  let pd2 :=
    if strTruthy j.description then { pd1 with description := j.description } else pd1
  let pd3 :=
    match j.image with
    | some img => if img.jsTruthy then { pd2 with images := some img.toArr } else pd2
    | none => pd2
  let pd4 :=
    match j.offers with
    | some ov =>
      let offer : Option Offer := match ov with | .one o => some o | .arr l => l.head?
      let p : JVal := match offer with | some o => o.price | none => JVal.undef
      let cur : Option String := match offer with | some o => o.priceCurrency | none => none
      let amount : JVal := if p.truthy then p else JVal.null
      let currency : Option String := if strTruthy cur then cur else some "GBP"
      let displayPrice : JVal := if p.truthy then p else JVal.null
      { pd3 with price := some ⟨amount, currency, displayPrice⟩ }
    | none => pd3
  if !strTruthy pd4.propertyType && strTruthy j.atType then
    { pd4 with propertyType := cleanText j.atType }
  else pd4

/-- `extractPropertyDetails($, html, basicInfo)` from `main.js` lines
831-934, over the page model: the `catch` branch (`crash`) returns the
basic info tagged `"failed"`; otherwise the JSON-LD pass, the
embedded-JSON pass and the HTML fallbacks run in order and the final
record carries the method tag those passes produced. -/
def extractPropertyDetails (page : DetailPage) (basicInfo : Property) : Property :=
  if page.crash then { basicInfo with extractionMethod := some "failed" }
  else
    let jopt := page.jsonLdBlocks.find? isPropertyJsonLd
    let pd1 := match jopt with | some j => applyJsonLd basicInfo j | none => basicInfo
    let em1 : String := if jopt.isSome then "json-ld" else "html-parse"
    let pdu := embedLoop pd1 false page.embedded
    let pd2 := pdu.1
    let em2 : String :=
      if pdu.2 then (if em1 = "json-ld" then "json-ld+embedded" else "embedded-json")
      else em1
    let title := jsOr pd2.title (cleanTextStr page.h1Text)
    let description := jsOr pd2.description (cleanTextStr page.descText)
    let keyFeatures := collectKeyFeatures page.keyFeatureTexts
    let details := page.detailsHtml
    let pd3 :=
      match pd2.images with
      | none => { pd2 with images := some (galleryGo [] page.galleryImgs) }
      | some _ => pd2
    let floorplans := floorplanFold page.floorplanImgs
    let pd4 :=
      match page.agentHtml with
      | some ad =>
        if pd3.agentDetails = none then
          let pd := { pd3 with agentDetails := some ad }
          if !strTruthy pd.agent then { pd with agent := ad.name } else pd
        else pd3
      | none => pd3
    let ptFromDetails := getDetailValue (some details) ["property type", "property type:"]
    let pd5 :=
      if !strTruthy pd4.propertyType && strTruthy ptFromDetails then
        { pd4 with propertyType := ptFromDetails }
      else pd4
    let pd6 :=
      if !strTruthy pd5.propertyType then
        let text :=
          (title.getD "") ++ " " ++ (description.getD "") ++ " " ++ (pd5.address.getD "")
        { pd5 with propertyType := inferPropertyType (some text) }
      else pd5
    { pd6 with
      title := jsOr title pd6.title
      description := jsOr description pd6.description
      keyFeatures := if keyFeatures.length > 0 then some keyFeatures else pd6.keyFeatures
      details := if details.length > 0 then some details else pd6.details
      floorplans := if floorplans.length > 0 then some floorplans else pd6.floorplans
      images :=
        match pd6.images with
        | some l => if l.length > 0 then some l else none
        | none => none
      extractionMethod := some em2 }

/-- The `needsApi` test of the DETAIL branch (lines 1099-1104). -/
def needsApi (p : Property) : Bool :=
  !strTruthy p.propertyType || !strTruthy p.agent || p.details.isNone ||
    p.images.isNone || !strTruthy p.description

/-- The DETAIL branch of `requestHandler` (lines 1092-1130): extract,
optionally merge the API partial, normalize, and push exactly one
record onto the batch; `apiExtract` is the partial the API fetch would
yield (`none` when the API returned nothing). -/
def detailHandler (page : DetailPage) (baseInfo : Property) (apiExtract : Option Property)
    (batch : List Property) : List Property × Property :=
  let property := extractPropertyDetails page baseInfo
  let property2 :=
    if needsApi property && strTruthy baseInfo.propertyId then
      match apiExtract with
      | some e => mergePropertyData property e
      | none => property
    else property
  let normalized := normalizeProperty property2
  (batch ++ [normalized], normalized)

/-! ## Pagination model: `findNextPageUrl` and the LIST handler -/

/-- `DEFAULT_PROPERTIES_PER_PAGE` from `main.js` (24 results per page). -/
def DEFAULT_PROPERTIES_PER_PAGE : ℤ := 24

/-- The digit prefix for `parseInt`: `none` is `NaN`. -/
def parseIntDigits (l : List Char) : Option ℤ :=
  let ds := l.takeWhile isDigitC
  if ds.isEmpty then none else some (digitsVal ds : ℤ)

/-- JS `parseInt(s, 10)`: skip whitespace, optional sign, then the
decimal digit prefix; `none` models `NaN`. -/
def parseIntStr (s : String) : Option ℤ :=
  match s.data.dropWhile isJsWs with
  | '-' :: rest => (parseIntDigits rest).map (fun n => -n)
  | '+' :: rest => parseIntDigits rest
  | l => parseIntDigits l

/-- `parseInt` on a possibly-null argument (`parseInt(null, 10)` is
`NaN`). -/
def parseIntOpt (s : Option String) : Option ℤ :=
  s.bind parseIntStr

/-- The `new URL(...)` object: a base part plus the ordered search
parameters. -/
structure UrlModel where
  base : String := ""
  params : List (String × String) := []
deriving DecidableEq, Repr

/-- `searchParams.get(k)`: the first value stored for `k`, or null. -/
def urlGet (u : UrlModel) (k : String) : Option String :=
  (u.params.find? fun q => q.1 = k).map Prod.snd

/-- `searchParams.set(k, v)`: update the entry in place when the key
exists, else append it. -/
def urlSet (u : UrlModel) (k v : String) : UrlModel :=
  if u.params.any (fun q => q.1 = k) then
    { u with params := u.params.map fun q => if q.1 = k then (k, v) else q }
  else { u with params := u.params ++ [(k, v)] }

/-- `urlObj.toString()`: base plus the serialized query string. -/
def urlToString (u : UrlModel) : String :=
  u.base ++
    u.params.foldl (fun acc q => acc ++ (if acc = "" then "?" else "&") ++ q.1 ++ "=" ++ q.2) ""

/-- One matched "next" selector element, carrying the attributes the
resolver reads from it (each already the `a?.attr(...) || el.attr(...)`
result). -/
structure SelHit where
  href : Option String := none
  dataUrl : Option String := none
  dataPage : Option String := none
deriving DecidableEq, Repr

/-- The selector loop of `findNextPageUrl`: the first hit with a truthy
`href` or `data-url` resolves through `ensureAbsoluteUrl`; a truthy
`data-page` rebuilds the URL from the parsed page number (falling back
to the unmodified URL when the parse is `NaN`); otherwise the next
selector is tried. -/
def findNextPageUrlGo (requestUrl : UrlModel) : List SelHit → Option String
  | [] => none
  | hit :: rest =>
    if strTruthy hit.href then ensureAbsoluteUrl hit.href
    else if strTruthy hit.dataUrl then ensureAbsoluteUrl hit.dataUrl
    else if strTruthy hit.dataPage then
      match parseIntOpt hit.dataPage with
      | some pageNum =>
        some (urlToString
          (urlSet (urlSet requestUrl "page" (jsNumToString (pageNum : ℚ)))
            "index" (jsNumToString ((max 0 ((pageNum - 1) * DEFAULT_PROPERTIES_PER_PAGE) : ℤ) : ℚ))))
      | none => some (urlToString requestUrl)
    else findNextPageUrlGo requestUrl rest

/-- The fallback of `findNextPageUrl` (lines 666-680): bump the `index`
parameter by a page worth of results and the `page` parameter by 1,
deriving both from the current URL or the caller's `currentPage`. -/
def nextPageFallback (requestUrl : UrlModel) (currentPage : ℤ) : UrlModel :=
  let currentIndex := parseIntOpt (urlGet requestUrl "index")
  let currentPageParam := parseIntOpt (urlGet requestUrl "page")
  let nextIndex : ℤ :=
    match currentIndex with
    | some i => i + DEFAULT_PROPERTIES_PER_PAGE
    | none =>
      match currentPageParam with
      | some p => p * DEFAULT_PROPERTIES_PER_PAGE
      | none => max 0 ((if currentPage = 0 then 1 else currentPage) * DEFAULT_PROPERTIES_PER_PAGE)
  let u1 := urlSet requestUrl "index" (jsNumToString (nextIndex : ℚ))
  let nextPage : ℤ :=
    match currentPageParam with
    | some p => p + 1
    | none => (if currentPage = 0 then 1 else currentPage) + 1
  urlSet u1 "page" (jsNumToString (nextPage : ℚ))

/-- `findNextPageUrl($, requestUrl, currentPage)` from `main.js` lines
628-681: try the selector hits, else build the fallback URL — there is
no code path that reports "no next page". -/
def findNextPageUrl (hits : List SelHit) (requestUrl : UrlModel) (currentPage : ℤ) :
    Option String :=
  match findNextPageUrlGo requestUrl hits with
  | some u => some u
  | none => some (urlToString (nextPageFallback requestUrl currentPage))

/-- One fetched list page: the extracted card partials (null for a card
`extractPropertyCard` rejected) and the matched "next" selector
elements. -/
structure ListPage where
  cards : List (Option Property) := []
  nav : List SelHit := []
deriving DecidableEq, Repr

/-- The shared crawl state of `main.js`: the dedup set (as its
insertion-ordered list), every detail URL ever enqueued, and the three
counters. -/
structure CrawlState where
  propertyUrls : List String := []
  queuedDetails : List String := []
  propertiesQueued : ℕ := 0
  propertiesStored : ℕ := 0
  pagesProcessed : ℕ := 0
deriving DecidableEq, Repr

/-- `collectDetails ? propertiesQueued : propertiesStored`. -/
def listPageCounter (collectDetails : Bool) (st : CrawlState) : ℕ :=
  if collectDetails then st.propertiesQueued else st.propertiesStored

/-- The card-collection loop (lines 1146-1153): stop at `remaining`
kept cards, skip null cards, falsy URLs and URLs already in the dedup
set; otherwise add the URL to the set and keep the card. -/
def collectCards (remaining : ℕ) : List String → List Property → List (Option Property) →
    List String × List Property
  | urls, acc, [] => (urls, acc)
  | urls, acc, card :: rest =>
    if remaining ≤ acc.length then (urls, acc)
    else
      match card with
      | none => collectCards remaining urls acc rest
      | some pr =>
        match pr.url with
        | none => collectCards remaining urls acc rest
        | some u =>
          if u = "" then collectCards remaining urls acc rest
          else if u ∈ urls then collectCards remaining urls acc rest
          else collectCards remaining (urls ++ [u]) (acc ++ [pr]) rest

/-- The detail-queue loop (lines 1157-1170): enqueue each kept card's
URL until the `maxResults` quota (the collection loop only keeps cards
with a non-empty URL, so the default never fires). -/
def queueDetails (maxResults : ℕ) : ℕ → List String → List Property → ℕ × List String
  | queued, qd, [] => (queued, qd)
  | queued, qd, pr :: rest =>
    if maxResults ≤ queued then (queued, qd)
    else queueDetails maxResults (queued + 1) (qd ++ [pr.url.getD ""]) rest

/-- The basic-card store loop (lines 1171-1182), counting the records
pushed until the quota. -/
def storeBasics (maxResults : ℕ) : ℕ → List Property → ℕ
  | stored, [] => stored
  | stored, _pr :: rest =>
    if maxResults ≤ stored then stored
    else storeBasics maxResults (stored + 1) rest

/-- The LIST branch of `requestHandler` (lines 1133-1204): update the
page counter, bail out when the quota is already met, collect and
dedup the cards, queue or store them, and queue the next LIST request
(as resolved URL and next page number) exactly when both ceilings still
have room. -/
def processListPage (collectDetails : Bool) (maxResults maxPages : ℕ)
    (requestUrl : UrlModel) (st : CrawlState) (pageNumber : ℕ) (page : ListPage) :
    CrawlState × Option (String × ℕ) :=
  let pages1 := max st.pagesProcessed (if pageNumber = 0 then 1 else pageNumber)
  let st1 : CrawlState := { st with pagesProcessed := pages1 }
  if maxResults ≤ listPageCounter collectDetails st1 then (st1, none)
  else
    let remaining := maxResults - listPageCounter collectDetails st1
    let cc := collectCards remaining st1.propertyUrls [] page.cards
    let st2 : CrawlState :=
      if collectDetails then
        let qr := queueDetails maxResults st1.propertiesQueued st1.queuedDetails cc.2
        { st1 with
          propertyUrls := cc.1
          propertiesQueued := qr.1
          queuedDetails := qr.2 }
      else
        { st1 with
          propertyUrls := cc.1
          propertiesStored := storeBasics maxResults st1.propertiesStored cc.2 }
    if listPageCounter collectDetails st2 < maxResults ∧ pages1 < maxPages then
      let cur : ℕ := if pageNumber ≠ 0 then pageNumber else if pages1 ≠ 0 then pages1 else 1
      match findNextPageUrl page.nav requestUrl (cur : ℤ) with
      | some nurl => (st2, some (nurl, cur + 1))
      | none => (st2, none)
    else (st2, none)

/-- The LIST chain of a run: each processed page queues at most one
next LIST request; `site` gives the fetched page for each page number
and `urlOf` its request URL; the result is the final state, the number
of pages processed, and whether the chain stopped by itself (rather
than by fuel). -/
def runListGo (collectDetails : Bool) (maxResults maxPages : ℕ) (site : ℕ → ListPage)
    (urlOf : ℕ → UrlModel) : ℕ → CrawlState → ℕ → CrawlState × ℕ × Bool
  | 0, st, _ => (st, 0, false)
  | fuel + 1, st, pn =>
    let pr := processListPage collectDetails maxResults maxPages (urlOf pn) st pn (site pn)
    match pr.2 with
    | none => (pr.1, 1, true)
    | some q =>
      let r := runListGo collectDetails maxResults maxPages site urlOf fuel pr.1 q.2
      (r.1, r.2.1 + 1, r.2.2)

/-- A full run, started like `main.js` does: page number 1, fresh
state, and `maxPages` fuel (which the termination theorem shows is
enough). -/
def runList (collectDetails : Bool) (maxResults maxPages : ℕ) (site : ℕ → ListPage)
    (urlOf : ℕ → UrlModel) : CrawlState × ℕ × Bool :=
  runListGo collectDetails maxResults maxPages site urlOf maxPages {} 1

/-- The `uniqueProperties` field of the final OUTPUT record
(`propertyUrls.size`, line 1241). -/
def outputUnique (st : CrawlState) : ℕ := st.propertyUrls.length

/-! ## Object-graph model: `findNestedObject` and `isLikelyPropertyPayload` -/

/-- A JavaScript object graph with `n` heap nodes (identity models the
`WeakSet` identity): each node is an array or a plain object, has its
`Object.keys` (for objects), and an ordered list of child values —
`none` is a primitive (or null) child, `some w` a reference to node
`w`. -/
structure JGraph (n : ℕ) where
  isArr : Fin n → Bool
  keys : Fin n → List String
  children : Fin n → List (Option (Fin n))

/-- Spec-side reachability: `Reach g v u d` says node `u` is reachable
from node `v` along exactly `d` child edges. -/
inductive Reach {n : ℕ} (g : JGraph n) : Fin n → Fin n → ℕ → Prop where
  | refl (v : Fin n) : Reach g v v 0
  | step {v c u : Fin n} {d : ℕ} : some c ∈ g.children v → Reach g c u d →
      Reach g v u (d + 1)

/-- `seen.has(value)` on the depth-annotated seen list (the depth
component is a proof ghost; the code's `WeakSet` stores only the
identities). -/
def seenHas {n : ℕ} (s : List (Fin n × ℕ)) (v : Fin n) : Bool :=
  s.any fun e => e.1 = v

/-- The `while (queue.length)` loop of `findNestedObject`, fuelled (the
fuel is a modelling device; `bfsMeasure` fuel is shown sufficient):
dequeue, skip primitives and already-seen nodes, return the first node
satisfying the predicate, and enqueue children of fresh nodes below
`maxDepth`. -/
def bfsGo {n : ℕ} (g : JGraph n) (pred : Fin n → Bool) (maxDepth : ℕ) :
    ℕ → List (Option (Fin n) × ℕ) → List (Fin n × ℕ) → Option (Fin n)
  | 0, _, _ => none
  | _ + 1, [], _ => none
  | fuel + 1, e :: rest, seen =>
    match e.1 with
    | none => bfsGo g pred maxDepth fuel rest seen
    | some v =>
      if seenHas seen v then bfsGo g pred maxDepth fuel rest seen
      else if pred v then some v
      else if maxDepth ≤ e.2 then bfsGo g pred maxDepth fuel rest ((v, e.2) :: seen)
      else
        bfsGo g pred maxDepth fuel
          (rest ++ (g.children v).map fun c => (c, e.2 + 1)) ((v, e.2) :: seen)

/-- Unprocessed-work potential: each not-yet-seen node can contribute
one dequeue of itself plus one dequeue per child it enqueues. -/
def bfsPotential {n : ℕ} (g : JGraph n) (seen : List (Fin n × ℕ)) : ℕ :=
  ∑ v : Fin n, if seenHas seen v then 0 else 1 + (g.children v).length

/-- Upper bound on the number of loop iterations left. -/
def bfsMeasure {n : ℕ} (g : JGraph n) (q : List (Option (Fin n) × ℕ))
    (seen : List (Fin n × ℕ)) : ℕ :=
  q.length + bfsPotential g seen

/-- `findNestedObject(root, predicate, maxDepth)` from `main.js` lines
286-310: null/primitive roots give null, otherwise the bounded BFS
starting from the root at depth 0 with an empty seen set. -/
def findNestedObject {n : ℕ} (g : JGraph n) (pred : Fin n → Bool) (maxDepth : ℕ)
    (root : Option (Fin n)) : Option (Fin n) :=
  match root with
  | none => none
  | some r => bfsGo g pred maxDepth (bfsMeasure g [(some r, 0)] []) [(some r, 0)] []

/-- `isLikelyPropertyPayload(obj)` from `main.js` lines 312-319 over a
graph node: a plain object (not an array) exposing an address-like key
and at least one bedroom-, type- or price-like key. -/
def isLikelyPropertyPayload {n : ℕ} (g : JGraph n) (v : Fin n) : Bool :=
  (!g.isArr v) &&
  ((["displayAddress", "address", "propertyAddress", "addressSummary"].any fun k =>
      decide (k ∈ g.keys v)) &&
    ((["bedrooms", "bedroomCount", "numBedrooms"].any fun k => decide (k ∈ g.keys v)) ||
      (["propertyType", "propertySubType", "propertyTypeFullDescription"].any fun k =>
        decide (k ∈ g.keys v)) ||
      (["price", "displayPrice", "priceAmount"].any fun k => decide (k ∈ g.keys v))))

/-- A concrete three-node graph with a cycle, used to exercise the
locator: node 0 references the payload node 1 and the cycling node 2. -/
def G3 : JGraph 3 where
  isArr := fun _ => false
  keys := fun v => if v = 1 then ["displayAddress", "bedrooms"] else ["a"]
  children := fun v => if v = 0 then [some 1, some 2] else if v = 2 then [some 0] else []



/-- The head of the list, if any, is not whitespace. -/
def headNotWs : List Char → Bool
  | [] => true
  | c :: _ => !isJsWs c

/-- No two adjacent whitespace characters. -/
def noWsPair : List Char → Bool
  | [] => true
  | c :: rest => (!isJsWs c || headNotWs rest) && noWsPair rest

/-- Every whitespace character is a plain space. -/
def allWsSpace (l : List Char) : Bool :=
  l.all (fun c => !isJsWs c || c = ' ')

/-- The adjacency relation behind `noWsPair`: not both whitespace. -/
def wsR (a b : Char) : Prop := ¬(isJsWs a = true ∧ isJsWs b = true)

/-- Key lookup in a JS-object-as-assoc-list (first occurrence wins,
like JS property access on the objects the pipeline builds). -/
def dmLookup (a : String) : DetailsMap → Option String
  | [] => none
  | kv :: rest => if a = kv.1 then some kv.2 else dmLookup a rest

/-- Validity of the queue entries: object entries are reachable from
the root at their recorded depth, within the bound. -/
def QueueOK {n : ℕ} (g : JGraph n) (r : Fin n) (maxD : ℕ)
    (q : List (Option (Fin n) × ℕ)) : Prop :=
  ∀ e ∈ q, ∀ w : Fin n, e.1 = some w → Reach g r w e.2 ∧ e.2 ≤ maxD

/-- Validity of the seen entries: reachable at the recorded depth,
failed the predicate, within the bound. -/
def SeenOK {n : ℕ} (g : JGraph n) (pred : Fin n → Bool) (r : Fin n) (maxD : ℕ)
    (seen : List (Fin n × ℕ)) : Prop :=
  ∀ e ∈ seen, Reach g r e.1 e.2 ∧ pred e.1 = false ∧ e.2 ≤ maxD

/-- Seen depths never exceed queue depths (seen nodes were processed
earlier in BFS order). -/
def SeenLe {n : ℕ} (q : List (Option (Fin n) × ℕ)) (seen : List (Fin n × ℕ)) : Prop :=
  ∀ es ∈ seen, ∀ e2 ∈ q, es.2 ≤ e2.2

/-- The queue depths are nondecreasing and stay within one of the
front depth. -/
def DOrder {n : ℕ} (q : List (Option (Fin n) × ℕ)) : Prop :=
  (q.map Prod.snd).Sorted (· ≤ ·) ∧
    ∀ e0, q.head? = some e0 → ∀ e ∈ q, e.2 ≤ e0.2 + 1

/-- Every seen node below the depth bound has each child accounted
for: seen, or still queued, at one more than the parent's depth. -/
def SeenExp {n : ℕ} (g : JGraph n) (maxD : ℕ) (q : List (Option (Fin n) × ℕ))
    (seen : List (Fin n × ℕ)) : Prop :=
  ∀ es ∈ seen, es.2 < maxD → ∀ c : Fin n, some c ∈ g.children es.1 →
    (∃ dc, dc ≤ es.2 + 1 ∧ (c, dc) ∈ seen) ∨
    (∃ dc, dc ≤ es.2 + 1 ∧ (some c, dc) ∈ q)

/-- Every node reachable within the bound is already seen within its
depth, or covered by an unseen queue entry within its depth budget. -/
def Cover {n : ℕ} (g : JGraph n) (r : Fin n) (maxD : ℕ)
    (q : List (Option (Fin n) × ℕ)) (seen : List (Fin n × ℕ)) : Prop :=
  ∀ u k, k ≤ maxD → Reach g r u k →
    (∃ k2, k2 ≤ k ∧ (u, k2) ∈ seen) ∨
    (∃ w dq j, (some w, dq) ∈ q ∧ seenHas seen w = false ∧ Reach g w u j ∧ dq + j ≤ k)

/-! ## Spec-side definition for URL absolutization (C8) -/

/-- RFC-3986 scheme characters after the leading letter. -/
def isSchemeChar (c : Char) : Bool :=
  ('a' ≤ c && c ≤ 'z') || ('A' ≤ c && c ≤ 'Z') || isDigitC c ||
  c = '+' || c = '-' || c = '.'

/-- Modelled from the spec's wording (§4.1): an input "already has a
scheme" when it starts with `ALPHA *(ALPHA / DIGIT / "+" / "-" / ".")
":"`. Used only to compare the spec's phrasing with the code's
`startsWith("http")` test. -/
def specHasScheme (s : String) : Bool :=
  match s.data with
  | c :: _ =>
    (('a' ≤ c && c ≤ 'z') || ('A' ≤ c && c ≤ 'Z')) &&
    (match s.data.dropWhile isSchemeChar with
     | ':' :: _ => true
     | _ => false)
  | [] => false

/-! ## Helper lemmas for the pattern matchers -/

theorem containsPred_mono {p q : List Char → Bool}
    (h : ∀ t, p t = true → q t = true) :
    ∀ l, containsPred p l = true → containsPred q l = true := by
  intro l
  induction l with
  | nil => intro hp; exact h _ hp
  | cons c cs ih =>
    intro hp
    rw [containsPred] at hp ⊢
    rcases Bool.or_eq_true_iff.mp hp with h1 | h2
    · exact Bool.or_eq_true_iff.mpr (Or.inl (h _ h1))
    · exact Bool.or_eq_true_iff.mpr (Or.inr (ih h2))

theorem startsWithSeq_append {a b l : List Char}
    (h : startsWithSeq (a ++ b) l = true) :
    ∃ r, stripSeq a l = some r ∧ startsWithSeq b r = true := by
  induction a generalizing l with
  | nil => exact ⟨l, rfl, by simpa using h⟩
  | cons p ps ih =>
    cases l with
    | nil => simp [startsWithSeq] at h
    | cons c cs =>
      rw [List.cons_append, startsWithSeq, Bool.and_eq_true] at h
      obtain ⟨r, hr, hb⟩ := ih h.2
      refine ⟨r, ?_, hb⟩
      have hpc : p = c := by simpa using h.1
      simp [stripSeq, hpc, hr]

theorem semiDetachedHere_of_startsWith {t : List Char}
    (h : startsWithSeq ("semi-detached".data) t = true) :
    semiDetachedHere t = true := by
  have hsplit : ("semi-detached".data) = ("semi".data) ++ ('-' :: "detached".data) := by
    decide
  rw [hsplit] at h
  obtain ⟨r, hstrip, hrest⟩ := startsWithSeq_append h
  cases r with
  | nil => simp [startsWithSeq] at hrest
  | cons c r2 =>
    rw [startsWithSeq, Bool.and_eq_true] at hrest
    have hc : c = '-' := by
      have h1 := hrest.1
      simp at h1
      exact h1.symm
    simp [semiDetachedHere, hstrip, hc, hrest.2]



/-! ## Claim C6 -/

set_option maxHeartbeats 2000000 in
/-- C6: `classifyPropertyType` (`inferPropertyType` in the source) tests
its input against the ordered rule list `PROPERTY_TYPE_PATTERNS`, most
specific first, returning the value of the first matching rule or null
when none matches; any input containing "semi-detached"
(case-insensitively) yields `"Semi-Detached"`, never `"Detached"`. -/
theorem C6_inferPropertyType_ordered :
    (∀ s : String,
        containsSeq "semi-detached".data (s.data.map Char.toLower) = true →
        inferPropertyType (some s) = some "Semi-Detached") ∧
    inferPropertyType (some "Semi-Detached House") = some "Semi-Detached" ∧
    (∀ s : String,
        (∀ pr ∈ PROPERTY_TYPE_PATTERNS, pr.1 (s.data.map Char.toLower) = false) →
        inferPropertyType (some s) = none) := by
  refine ⟨?_, by decide, ?_⟩
  · intro s h
    have hne : s ≠ "" := by
      intro hs; subst hs; revert h; decide
    have hm : containsPred semiDetachedHere (s.data.map Char.toLower) = true :=
      containsPred_mono (fun t ht => semiDetachedHere_of_startsWith ht) _ h
    simp [inferPropertyType, hne, PROPERTY_TYPE_PATTERNS, List.find?, hm]
  · intro s hall
    by_cases hs : s = ""
    · simp [inferPropertyType, hs]
    · have hnone :
          List.find? (fun pr => pr.1 (s.data.map Char.toLower)) PROPERTY_TYPE_PATTERNS
            = none :=
        List.find?_eq_none.mpr (fun pr hpr => by simp [hall pr hpr])
      simp [inferPropertyType, hs, hnone]

set_option maxHeartbeats 2000000 in
/-- C6 witness: the universally quantified parts applied at concrete
inputs, hypotheses discharged by evaluation. -/
theorem C6_witness :
    inferPropertyType (some "a semi-detached house") = some "Semi-Detached" ∧
    inferPropertyType (some "???") = none :=
  ⟨C6_inferPropertyType_ordered.1 "a semi-detached house" (by decide),
   C6_inferPropertyType_ordered.2.2 "???" (by decide)⟩

/-! ## Claim C5 -/

/-- Evaluation lemma for `parsePrice` when a numeric token exists (this
is the non-null branch of the source function, with the two suffix
tests still symbolic). -/
theorem parsePrice_eval (s : String) (ip fp : List Char) (hne : s ≠ "")
    (htok : firstNumToken (s.data.filter (fun c => c ≠ ',')) = some (ip, fp)) :
    parsePrice (some s) = some
      { amount := JVal.num
          (if hasUnitSuffix 'm' none ((s.data.filter (fun c => c ≠ ',')).map Char.toLower)
              || containsSeq "million".data ((s.data.filter (fun c => c ≠ ',')).map Char.toLower)
           then tokenVal ip fp * 1000000
           else if hasUnitSuffix 'k' none ((s.data.filter (fun c => c ≠ ',')).map Char.toLower)
           then tokenVal ip fp * 1000 else tokenVal ip fp),
        currency := some "GBP",
        displayPrice := match cleanTextStr s with
                        | some t => JVal.str t
                        | none => JVal.null } := by
  simp only [parsePrice, if_neg hne, htok]

set_option maxHeartbeats 4000000 in
/-- C5: `parsePrice` strips thousands separators, extracts the first
numeric token (returning null when there is none), scales by 1e6 on a
"million"/standalone-"m" suffix, else by 1e3 on a standalone-"k"
suffix; the four concrete examples of the spec evaluate as stated. -/
theorem C5_parsePrice_spec :
    (∀ s : String,
        firstNumToken (s.data.filter (fun c => c ≠ ',')) = none →
        parsePrice (some s) = none) ∧
    parsePrice (some "£1,250,000") =
      some { amount := JVal.num 1250000, currency := some "GBP",
             displayPrice := JVal.str "£1,250,000" } ∧
    parsePrice (some "£450k") =
      some { amount := JVal.num 450000, currency := some "GBP",
             displayPrice := JVal.str "£450k" } ∧
    parsePrice (some "£1.2 million") =
      some { amount := JVal.num 1200000, currency := some "GBP",
             displayPrice := JVal.str "£1.2 million" } ∧
    parsePrice (some "POA") = none := by
  refine ⟨?_, ?_, ?_, ?_, by decide⟩
  · intro s h
    simp only [ne_eq, decide_not] at h
    by_cases hs : s = ""
    · simp [parsePrice, hs]
    · simp [parsePrice, hs, h]
  · rw [parsePrice_eval "£1,250,000" ['1','2','5','0','0','0','0'] [] (by decide) (by decide),
        if_neg (by decide), if_neg (by decide)]
    have hval : tokenVal ['1','2','5','0','0','0','0'] [] = (1250000 : ℚ) := by
      have hd : digitsVal ['1','2','5','0','0','0','0'] = 1250000 := by decide
      have hd0 : digitsVal ([] : List Char) = 0 := by decide
      simp only [tokenVal, hd, hd0, List.length_nil]
      norm_num
    rw [hval, show cleanTextStr "£1,250,000" = some "£1,250,000" from by decide]
  · rw [parsePrice_eval "£450k" ['4','5','0'] [] (by decide) (by decide),
        if_neg (by decide), if_pos (by decide)]
    have hval : tokenVal ['4','5','0'] [] * 1000 = (450000 : ℚ) := by
      have hd : digitsVal ['4','5','0'] = 450 := by decide
      have hd0 : digitsVal ([] : List Char) = 0 := by decide
      simp only [tokenVal, hd, hd0, List.length_nil]
      norm_num
    rw [hval, show cleanTextStr "£450k" = some "£450k" from by decide]
  · rw [parsePrice_eval "£1.2 million" ['1'] ['2'] (by decide) (by decide),
        if_pos (by decide)]
    have hval : tokenVal ['1'] ['2'] * 1000000 = (1200000 : ℚ) := by
      have hd : digitsVal ['1'] = 1 := by decide
      have hd2 : digitsVal ['2'] = 2 := by decide
      simp only [tokenVal, hd, hd2, List.length_cons, List.length_nil]
      norm_num
    rw [hval, show cleanTextStr "£1.2 million" = some "£1.2 million" from by decide]

/-- C5 witness: the null-on-no-token part applied at the concrete input
"POA". -/
theorem C5_witness :
    firstNumToken (("POA" : String).data.filter (fun c => c ≠ ',')) = none ∧
    parsePrice (some "POA") = none :=
  ⟨by decide, C5_parsePrice_spec.1 "POA" (by decide)⟩

/-! ## Claim C8 -/

/-- C8 counterexample: `"ftp://img.example.com/x.jpg"` has a scheme in
the RFC sense the spec's wording uses, yet `ensureAbsoluteUrl` does not
return it unchanged (the code tests `startsWith("http")`, not "has a
scheme"). -/
theorem C8_counterexample :
    specHasScheme "ftp://img.example.com/x.jpg" = true ∧
    ensureAbsoluteUrl (some "ftp://img.example.com/x.jpg") ≠
      some "ftp://img.example.com/x.jpg" := by
  exact ⟨by decide, by decide⟩

/-- C8 (amended): inputs starting with `"http"` pass through unchanged;
protocol-relative inputs get `"https:"`; root-relative inputs get the
base origin; bare inputs get the base origin plus `/`; null/empty input
gives null; and the two concrete examples of the spec hold. -/
theorem C8_ensureAbsoluteUrl_amended :
    (∀ s : String, strStartsWith s "http" = true →
        ensureAbsoluteUrl (some s) = some s) ∧
    (∀ s : String, strStartsWith s "http" = false → strStartsWith s "//" = true →
        ensureAbsoluteUrl (some s) = some ("https:" ++ s)) ∧
    (∀ s : String, s ≠ "" → strStartsWith s "http" = false →
        strStartsWith s "//" = false → strStartsWith s "/" = true →
        ensureAbsoluteUrl (some s) = some (BASE_URL ++ s)) ∧
    (∀ s : String, s ≠ "" → strStartsWith s "http" = false →
        strStartsWith s "//" = false → strStartsWith s "/" = false →
        ensureAbsoluteUrl (some s) = some (BASE_URL ++ "/" ++ s)) ∧
    ensureAbsoluteUrl none = none ∧
    ensureAbsoluteUrl (some "") = none ∧
    ensureAbsoluteUrl (some "/properties/123") =
      some (BASE_URL ++ "/properties/123") ∧
    ensureAbsoluteUrl (some "//img.example.com/x.jpg") =
      some "https://img.example.com/x.jpg" := by
  refine ⟨?_, ?_, ?_, ?_, rfl, by decide, by decide, by decide⟩
  · intro s h
    have hne : s ≠ "" := by
      intro hs; subst hs; revert h; decide
    simp [ensureAbsoluteUrl, ensureAbsoluteUrlStr, hne, h]
  · intro s h1 h2
    have hne : s ≠ "" := by
      intro hs; subst hs; revert h2; decide
    simp [ensureAbsoluteUrl, ensureAbsoluteUrlStr, hne, h1, h2]
  · intro s hne h1 h2 h3
    simp [ensureAbsoluteUrl, ensureAbsoluteUrlStr, hne, h1, h2, h3]
  · intro s hne h1 h2 h3
    simp [ensureAbsoluteUrl, ensureAbsoluteUrlStr, hne, h1, h2, h3]

/-- C8 witness: the amended rules applied at the spec's concrete
inputs. -/
theorem C8_witness :
    ensureAbsoluteUrl (some "/properties/123") =
      some (BASE_URL ++ "/properties/123") ∧
    ensureAbsoluteUrl (some "https://a.b/c") = some "https://a.b/c" :=
  ⟨C8_ensureAbsoluteUrl_amended.2.2.1 "/properties/123" (by decide) (by decide)
      (by decide) (by decide),
   C8_ensureAbsoluteUrl_amended.1 "https://a.b/c" (by decide)⟩

/-! ## Claim C10 -/

/-- C10: the effective `maxResults` always lies in `[1, 1000]` and the
effective `maxPages` in `[1, 50]`; missing, zero or non-numeric raw
values fall back to 50 and 5 respectively. -/
theorem C10_limits_clamped :
    (∀ raw, 1 ≤ effMaxResults raw ∧ effMaxResults raw ≤ 1000) ∧
    (∀ raw, 1 ≤ effMaxPages raw ∧ effMaxPages raw ≤ 50) ∧
    effMaxResults none = 50 ∧
    effMaxResults (some (JNumIn.val 0)) = 50 ∧
    effMaxResults (some JNumIn.nanv) = 50 ∧
    effMaxPages none = 5 ∧
    effMaxPages (some (JNumIn.val 0)) = 5 ∧
    effMaxPages (some JNumIn.nanv) = 5 := by
  refine ⟨?_, ?_, by decide, by decide, by decide, by decide, by decide, by decide⟩
  · intro raw
    unfold effMaxResults effLimit
    exact ⟨le_min (le_max_right _ _) (by norm_num), min_le_right _ _⟩
  · intro raw
    unfold effMaxPages effLimit
    exact ⟨le_min (le_max_right _ _) (by norm_num), min_le_right _ _⟩


/-! ## Idempotence of `cleanText` (supporting lemmas) -/




theorem headNotWs_dropWhile (l : List Char) :
    headNotWs (l.dropWhile isJsWs) = true := by
  induction l with
  | nil => rfl
  | cons c rest ih =>
    by_cases h : isJsWs c = true
    · simpa [List.dropWhile, h] using ih
    · simp [List.dropWhile, h, headNotWs]

theorem collapseWsGo_allWsSpace (l : List Char) :
    ∀ f, allWsSpace (collapseWsGo f l) = true := by
  induction l with
  | nil => intro f; rfl
  | cons c rest ih =>
    intro f
    by_cases h : isJsWs c = true
    · cases f with
      | true => simpa [collapseWsGo, h] using ih true
      | false =>
        simp only [collapseWsGo, h, if_true]
        simpa [allWsSpace, isJsWs] using ih true
    · simp only [collapseWsGo, h]
      simpa [allWsSpace, h] using ih false

theorem collapseWsGo_noWsPair (l : List Char) :
    ∀ f, noWsPair (collapseWsGo f l) = true ∧
      (f = true → headNotWs (collapseWsGo f l) = true) := by
  induction l with
  | nil => intro f; exact ⟨rfl, fun _ => rfl⟩
  | cons c rest ih =>
    intro f
    by_cases h : isJsWs c = true
    · cases f with
      | true =>
        simpa [collapseWsGo, h] using ih true
      | false =>
        simp only [collapseWsGo, h, if_true, Bool.false_eq_true, if_false]
        refine ⟨?_, fun hf => by simp at hf⟩
        have h1 := (ih true).1
        have h2 := (ih true).2 rfl
        simp [noWsPair, h1, h2]
    · simp only [collapseWsGo, h, Bool.false_eq_true, if_false]
      have h1 := (ih false).1
      constructor
      · simp [noWsPair, h1, h]
      · intro _
        simp [headNotWs, h]

theorem collapseWsGo_id (l : List Char) :
    allWsSpace l = true → noWsPair l = true →
      ((headNotWs l = true → ∀ f, collapseWsGo f l = l) ∧
        collapseWsGo false l = l) := by
  induction l with
  | nil => intro _ _; exact ⟨fun _ _ => rfl, rfl⟩
  | cons c rest ih =>
    intro hsp hnp
    have hsp' : allWsSpace rest = true := by
      simp only [allWsSpace, List.all_cons, Bool.and_eq_true] at hsp
      exact hsp.2
    have hnp' : noWsPair rest = true := by
      simp only [noWsPair, Bool.and_eq_true] at hnp
      exact hnp.2
    have ihr := ih hsp' hnp'
    constructor
    · intro hh f
      have hc : isJsWs c = false := by
        simp only [headNotWs, Bool.not_eq_true'] at hh
        exact hh
      simp [collapseWsGo, hc, ihr.2]
    · by_cases hc : isJsWs c = true
      · have hcs : c = ' ' := by
          simp only [allWsSpace, List.all_cons, Bool.and_eq_true] at hsp
          rcases Bool.or_eq_true_iff.mp hsp.1 with h1 | h2
          · rw [hc] at h1; simp at h1
          · simpa using h2
        have hhr : headNotWs rest = true := by
          simp only [noWsPair, Bool.and_eq_true] at hnp
          rcases Bool.or_eq_true_iff.mp hnp.1 with h1 | h2
          · rw [hc] at h1; simp at h1
          · exact h2
        subst hcs
        simp [collapseWsGo, hc, ihr.1 hhr true]
      · simp only [Bool.not_eq_true] at hc
        simp [collapseWsGo, hc, ihr.2]

theorem trimWs_headNotWs_rev (x : List Char) :
    headNotWs ((trimWs x).reverse) = true := by
  have : (trimWs x).reverse = ((x.dropWhile isJsWs).reverse.dropWhile isJsWs) := by
    simp [trimWs]
  rw [this]
  exact headNotWs_dropWhile _

theorem dropWhile_append_singleton {p : Char → Bool} {c : Char}
    (hc : p c = false) (v : List Char) :
    ∃ w : List Char, (v ++ [c]).dropWhile p = w ++ [c] := by
  induction v with
  | nil => exact ⟨[], by simp [List.dropWhile, hc]⟩
  | cons a rest ih =>
    by_cases ha : p a = true
    · obtain ⟨w, hw⟩ := ih
      exact ⟨w, by simp [List.dropWhile, ha, hw]⟩
    · exact ⟨a :: rest, by simp [List.dropWhile, ha]⟩

theorem trimWs_headNotWs (x : List Char) :
    headNotWs (trimWs x) = true := by
  rcases hz : x.dropWhile isJsWs with _ | ⟨c, rest⟩
  · simp [trimWs, hz, headNotWs]
  · have hc : isJsWs c = false := by
      have := headNotWs_dropWhile x
      rw [hz] at this
      simpa [headNotWs] using this
    have hrev : (c :: rest).reverse = rest.reverse ++ [c] := by simp
    obtain ⟨w, hw⟩ := dropWhile_append_singleton (p := isJsWs) hc rest.reverse
    simp only [trimWs, hz, hrev, hw]
    simp [headNotWs, hc]

theorem noWsPair_tail {c : Char} {l : List Char}
    (h : noWsPair (c :: l) = true) : noWsPair l = true := by
  simp only [noWsPair, Bool.and_eq_true] at h
  exact h.2

theorem noWsPair_dropWhile {p : Char → Bool} (l : List Char)
    (h : noWsPair l = true) : noWsPair (l.dropWhile p) = true := by
  induction l with
  | nil => simpa using h
  | cons c rest ih =>
    by_cases hc : p c = true
    · simpa [List.dropWhile, hc] using ih (noWsPair_tail h)
    · simpa [List.dropWhile, hc] using h

theorem headNotWs_of_noWsPair_cons {c : Char} {l : List Char}
    (h : noWsPair (c :: l) = true) (hc : isJsWs c = true) :
    headNotWs l = true := by
  simp only [noWsPair, Bool.and_eq_true] at h
  rcases Bool.or_eq_true_iff.mp h.1 with h1 | h2
  · rw [hc] at h1; simp at h1
  · exact h2

theorem noWsPair_append_right {l1 l2 : List Char}
    (h : noWsPair (l1 ++ l2) = true) : noWsPair l1 = true := by
  induction l1 with
  | nil => rfl
  | cons c rest ih =>
    simp only [List.cons_append, noWsPair, Bool.and_eq_true] at h
    have hr := ih h.2
    simp only [noWsPair, Bool.and_eq_true]
    refine ⟨?_, hr⟩
    rcases Bool.or_eq_true_iff.mp h.1 with h1 | h2
    · simp [h1]
    · cases rest with
      | nil => simp [headNotWs]
      | cons d tl =>
        have hd : isJsWs d = false := by simpa [headNotWs] using h2
        simp [headNotWs, hd]


theorem noWsPair_iff_chain (l : List Char) :
    noWsPair l = true ↔ l.Chain' wsR := by
  induction l with
  | nil => simp [noWsPair]
  | cons c rest ih =>
    rw [List.chain'_cons']
    simp only [noWsPair, Bool.and_eq_true, ih]
    constructor
    · rintro ⟨h1, h2⟩
      refine ⟨?_, h2⟩
      intro h hh
      cases rest with
      | nil => simp at hh
      | cons d tl =>
        simp only [List.head?_cons, Option.mem_def, Option.some.injEq] at hh
        subst hh
        rcases Bool.or_eq_true_iff.mp h1 with h1 | h1
        · exact fun hc => by rw [hc.1] at h1; simp at h1
        · refine fun hc => ?_
          simp only [headNotWs] at h1
          rw [hc.2] at h1; simp at h1
    · rintro ⟨h1, h2⟩
      refine ⟨?_, h2⟩
      cases rest with
      | nil => simp [headNotWs]
      | cons d tl =>
        have hdt := h1 d (by simp)
        by_cases hc : isJsWs c = true
        · have hd : isJsWs d = false := by
            by_contra hd
            simp only [Bool.not_eq_false] at hd
            exact hdt ⟨hc, hd⟩
          simp [headNotWs, hd]
        · simp [hc]

theorem noWsPair_reverse (l : List Char) (h : noWsPair l = true) :
    noWsPair l.reverse = true := by
  rw [noWsPair_iff_chain] at h ⊢
  rw [List.chain'_reverse]
  exact h.imp (fun a b hab hc => hab ⟨hc.2, hc.1⟩)

theorem noWsPair_trimWs (x : List Char) (h : noWsPair x = true) :
    noWsPair (trimWs x) = true := by
  unfold trimWs
  exact noWsPair_reverse _ (noWsPair_dropWhile _ (noWsPair_reverse _ (noWsPair_dropWhile _ h)))

theorem allWsSpace_of_mem {l m : List Char}
    (hsub : ∀ c, c ∈ m → c ∈ l) (h : allWsSpace l = true) :
    allWsSpace m = true := by
  simp only [allWsSpace, List.all_eq_true] at h ⊢
  exact fun c hc => h c (hsub c hc)

theorem mem_trimWs {c : Char} {x : List Char} (h : c ∈ trimWs x) : c ∈ x := by
  simp only [trimWs, List.mem_reverse] at h
  have h1 := (List.dropWhile_suffix isJsWs).sublist.mem h
  rw [List.mem_reverse] at h1
  exact (List.dropWhile_suffix isJsWs).sublist.mem h1

theorem trimWs_id (l : List Char) (h1 : headNotWs l = true)
    (h2 : headNotWs l.reverse = true) : trimWs l = l := by
  have d1 : l.dropWhile isJsWs = l := by
    cases l with
    | nil => rfl
    | cons c rest =>
      simp only [headNotWs, Bool.not_eq_true'] at h1
      simp [List.dropWhile, h1]
  have d2 : l.reverse.dropWhile isJsWs = l.reverse := by
    cases hrev : l.reverse with
    | nil => simp
    | cons c rest =>
      rw [hrev] at h2
      simp only [headNotWs, Bool.not_eq_true'] at h2
      simp [List.dropWhile, h2]
  simp [trimWs, d1, d2]

/-- `cleanChars` is idempotent: the collapse step is the identity on a
collapsed list, and the trim step is the identity on a trimmed one. -/
theorem cleanChars_idem (l : List Char) : cleanChars (cleanChars l) = cleanChars l := by
  have hsp : allWsSpace (cleanChars l) = true := by
    refine allWsSpace_of_mem (fun c hc => ?_) (collapseWsGo_allWsSpace l false)
    exact mem_trimWs hc
  have hnp : noWsPair (cleanChars l) = true :=
    noWsPair_trimWs _ ((collapseWsGo_noWsPair l false).1)
  have hcol : collapseWs (cleanChars l) = cleanChars l :=
    ((collapseWsGo_id (cleanChars l) hsp hnp).2)
  have hh1 : headNotWs (cleanChars l) = true := trimWs_headNotWs _
  have hh2 : headNotWs (cleanChars l).reverse = true := trimWs_headNotWs_rev _
  show trimWs (collapseWs (cleanChars l)) = cleanChars l
  rw [hcol]
  exact trimWs_id _ hh1 hh2

/-- The output of `cleanTextStr` is a fixed point of `cleanTextStr`. -/
theorem cleanTextStr_fix {s t : String} (h : cleanTextStr s = some t) :
    cleanTextStr t = some t := by
  unfold cleanTextStr at h ⊢
  by_cases hl : (String.mk (cleanChars s.data)).length > 0
  · rw [if_pos hl] at h
    have ht : t = String.mk (cleanChars s.data) := by
      exact (Option.some.injEq _ _).mp h |>.symm
    subst ht
    have : cleanChars (String.mk (cleanChars s.data)).data = cleanChars s.data := by
      show cleanChars (cleanChars s.data) = cleanChars s.data
      exact cleanChars_idem s.data
    simp only [this]
    rw [if_pos hl]
  · rw [if_neg hl] at h
    exact absurd h (by simp)

/-- C7 helper: `cleanText` is idempotent. -/
theorem cleanText_idem (x : Option String) : cleanText (cleanText x) = cleanText x := by
  cases x with
  | none => rfl
  | some s =>
    show cleanText (cleanTextStr s) = cleanTextStr s
    cases h : cleanTextStr s with
    | none => rfl
    | some t =>
      show cleanTextStr t = some t
      exact cleanTextStr_fix h


/-! ## `uniqueArray` lemmas -/

theorem uniqueArrayGo_mem {items : List (Option String)} {seen : List String} {v : String}
    (h : v ∈ uniqueArrayGo items seen) :
    cleanTextStr v = some v ∧ v ∉ seen := by
  induction items generalizing seen with
  | nil => simp [uniqueArrayGo] at h
  | cons item rest ih =>
    cases item with
    | none => exact ih h
    | some s =>
      rw [uniqueArrayGo] at h
      by_cases hs : s = ""
      · rw [if_pos hs] at h; exact ih h
      · rw [if_neg hs] at h
        cases hcs : cleanTextStr s with
        | none => rw [hcs] at h; exact ih h
        | some v0 =>
          simp only [hcs] at h
          by_cases hseen : v0 ∈ seen
          · rw [if_pos hseen] at h; exact ih h
          · rw [if_neg hseen] at h
            rcases List.mem_cons.mp h with hv | hv
            · subst hv
              exact ⟨cleanTextStr_fix hcs, hseen⟩
            · have := ih hv
              exact ⟨this.1, fun hmem => this.2 (List.mem_cons_of_mem _ hmem)⟩

theorem uniqueArrayGo_mem_src {items : List (Option String)} {seen : List String} {v : String}
    (h : v ∈ uniqueArrayGo items seen) :
    ∃ s, some s ∈ items ∧ cleanTextStr s = some v := by
  induction items generalizing seen with
  | nil => simp [uniqueArrayGo] at h
  | cons item rest ih =>
    cases item with
    | none =>
      obtain ⟨s, hs1, hs2⟩ := ih h
      exact ⟨s, List.mem_cons_of_mem _ hs1, hs2⟩
    | some s =>
      rw [uniqueArrayGo] at h
      by_cases hs : s = ""
      · rw [if_pos hs] at h
        obtain ⟨u, hu1, hu2⟩ := ih h
        exact ⟨u, List.mem_cons_of_mem _ hu1, hu2⟩
      · rw [if_neg hs] at h
        cases hcs : cleanTextStr s with
        | none =>
          rw [hcs] at h
          obtain ⟨u, hu1, hu2⟩ := ih h
          exact ⟨u, List.mem_cons_of_mem _ hu1, hu2⟩
        | some v0 =>
          simp only [hcs] at h
          by_cases hseen : v0 ∈ seen
          · rw [if_pos hseen] at h
            obtain ⟨u, hu1, hu2⟩ := ih h
            exact ⟨u, List.mem_cons_of_mem _ hu1, hu2⟩
          · rw [if_neg hseen] at h
            rcases List.mem_cons.mp h with hv | hv
            · subst hv
              exact ⟨s, List.mem_cons_self _ _, hcs⟩
            · obtain ⟨u, hu1, hu2⟩ := ih hv
              exact ⟨u, List.mem_cons_of_mem _ hu1, hu2⟩

theorem uniqueArrayGo_nodup (items : List (Option String)) :
    ∀ seen, (uniqueArrayGo items seen).Nodup := by
  induction items with
  | nil => intro seen; simp [uniqueArrayGo]
  | cons item rest ih =>
    intro seen
    cases item with
    | none => exact ih seen
    | some s =>
      rw [uniqueArrayGo]
      by_cases hs : s = ""
      · rw [if_pos hs]; exact ih seen
      · rw [if_neg hs]
        cases hcs : cleanTextStr s with
        | none => exact ih seen
        | some v0 =>
          show (if v0 ∈ seen then uniqueArrayGo rest seen
                else v0 :: uniqueArrayGo rest (v0 :: seen)).Nodup
          by_cases hseen : v0 ∈ seen
          · rw [if_pos hseen]; exact ih seen
          · rw [if_neg hseen]
            refine List.nodup_cons.mpr ⟨?_, ih _⟩
            intro hmem
            exact (uniqueArrayGo_mem hmem).2 (List.mem_cons_self _ _)

theorem uniqueArrayGo_fixed : ∀ (l : List String) (seen : List String),
    l.Nodup → (∀ e ∈ l, cleanTextStr e = some e) → (∀ e ∈ l, e ∉ seen) →
    uniqueArrayGo (l.map some) seen = l := by
  intro l
  induction l with
  | nil => intro seen _ _ _; rfl
  | cons e rest ih =>
    intro seen hnd hfix hsn
    have hfe : cleanTextStr e = some e := hfix e (List.mem_cons_self _ _)
    have hne : e ≠ "" := by
      intro h; subst h
      rw [show cleanTextStr "" = none from by decide] at hfe
      exact absurd hfe (by simp)
    have hstep : uniqueArrayGo ((e :: rest).map some) seen
        = e :: uniqueArrayGo (rest.map some) (e :: seen) := by
      rw [List.map_cons, uniqueArrayGo, if_neg hne, hfe]
      show (if e ∈ seen then uniqueArrayGo (rest.map some) seen
            else e :: uniqueArrayGo (rest.map some) (e :: seen))
          = e :: uniqueArrayGo (rest.map some) (e :: seen)
      rw [if_neg (hsn e (List.mem_cons_self _ _))]
    rw [hstep]
    have hnd' := List.nodup_cons.mp hnd
    congr 1
    refine ih (e :: seen) hnd'.2 (fun x hx => hfix x (List.mem_cons_of_mem _ hx)) ?_
    intro x hx hmem
    rcases List.mem_cons.mp hmem with h1 | h1
    · exact hnd'.1 (h1 ▸ hx)
    · exact hsn x (List.mem_cons_of_mem _ hx) h1

/-- `uniqueArray` is idempotent. -/
theorem uniqueArray_idemAux (items : List (Option String)) :
    uniqueArray (uniqueArrayO items) = uniqueArrayO items := by
  refine uniqueArrayGo_fixed _ _ (uniqueArrayGo_nodup _ _) ?_ (by simp)
  intro e he
  exact (uniqueArrayGo_mem he).1

theorem uniqueArray_idem (l : List String) :
    uniqueArray (uniqueArray l) = uniqueArray l :=
  uniqueArray_idemAux (l.map some)

/-! ## Absolutized URL lists are stable under re-normalization -/

theorem startsWithSeq_iff_ex (pat l : List Char) :
    startsWithSeq pat l = true ↔ ∃ r, l = pat ++ r := by
  induction pat generalizing l with
  | nil => simp [startsWithSeq]
  | cons p ps ih =>
    cases l with
    | nil => simp [startsWithSeq]
    | cons c cs =>
      rw [startsWithSeq, Bool.and_eq_true]
      constructor
      · rintro ⟨h1, h2⟩
        obtain ⟨r, hr⟩ := (ih cs).mp h2
        exact ⟨r, by simp at h1; simp [h1, hr]⟩
      · rintro ⟨r, hr⟩
        simp only [List.cons_append, List.cons.injEq] at hr
        exact ⟨by simp [hr.1], (ih cs).mpr ⟨r, hr.2⟩⟩

theorem ensureAbsoluteUrlStr_http {u s : String}
    (h : ensureAbsoluteUrlStr u = some s) : strStartsWith s "http" = true := by
  unfold ensureAbsoluteUrlStr at h
  by_cases h0 : u = ""
  · rw [if_pos h0] at h; exact absurd h (by simp)
  · rw [if_neg h0] at h
    by_cases h1 : strStartsWith u "http" = true
    · rw [if_pos h1] at h
      have hs : s = u := by simpa using h.symm
      rw [hs]; exact h1
    · rw [if_neg h1] at h
      by_cases h2 : strStartsWith u "//" = true
      · rw [if_pos h2] at h
        have hs : s = "https:" ++ u := by simpa using h.symm
        subst hs
        simp only [strStartsWith, String.data_append]
        simp [startsWithSeq]
      · rw [if_neg h2] at h
        have hs : ∃ t : String, s = BASE_URL ++ t := by
          by_cases h3 : strStartsWith u "/" = true
          · rw [if_pos h3] at h; exact ⟨u, by simpa using h.symm⟩
          · rw [if_neg h3] at h; exact ⟨"/" ++ u, by simpa using h.symm⟩
        obtain ⟨t, ht⟩ := hs
        subst ht
        simp only [strStartsWith, String.data_append]
        simp [startsWithSeq, BASE_URL]

theorem collapseWsGo_nonws_append {a : List Char}
    (ha : ∀ c ∈ a, isJsWs c = false) (x : List Char) :
    collapseWsGo false (a ++ x) = a ++ collapseWsGo false x := by
  induction a with
  | nil => rfl
  | cons c rest ih =>
    have hc := ha c (List.mem_cons_self _ _)
    rw [List.cons_append, collapseWsGo, if_neg (by simp [hc])]
    rw [ih (fun d hd => ha d (List.mem_cons_of_mem _ hd))]
    simp

theorem dropWhile_nonws_tail {v : List Char} (hv : ∀ c ∈ v, isJsWs c = false)
    (hne : v ≠ []) (u : List Char) :
    ∃ w, (u ++ v).dropWhile isJsWs = w ++ v := by
  induction u with
  | nil =>
    refine ⟨[], ?_⟩
    cases v with
    | nil => exact absurd rfl hne
    | cons c cs =>
      simp [List.dropWhile, hv c (List.mem_cons_self _ _)]
  | cons a u' ih =>
    by_cases haw : isJsWs a = true
    · obtain ⟨w, hw⟩ := ih
      exact ⟨w, by simp [List.dropWhile, haw, hw]⟩
    · exact ⟨a :: u', by simp [List.dropWhile, haw]⟩

theorem trimWs_nonws_head {a x : List Char}
    (ha : ∀ c ∈ a, isJsWs c = false) (hne : a ≠ []) :
    ∃ y, trimWs (a ++ x) = a ++ y := by
  have hd : (a ++ x).dropWhile isJsWs = a ++ x := by
    cases a with
    | nil => exact absurd rfl hne
    | cons c cs =>
      simp [List.dropWhile, ha c (List.mem_cons_self _ _)]
  have harev : ∀ c ∈ a.reverse, isJsWs c = false := by
    intro c hc; exact ha c (List.mem_reverse.mp hc)
  have harevne : a.reverse ≠ [] := by
    intro h; exact hne (by simpa using congrArg List.reverse h)
  obtain ⟨w, hw⟩ := dropWhile_nonws_tail harev harevne x.reverse
  refine ⟨w.reverse, ?_⟩
  unfold trimWs
  rw [hd, List.reverse_append, hw]
  simp

/-- Cleaning preserves a non-whitespace prefix such as `"http"`. -/
theorem cleanTextStr_http {s v : String}
    (hs : strStartsWith s "http" = true) (h : cleanTextStr s = some v) :
    strStartsWith v "http" = true := by
  obtain ⟨r, hr⟩ := (startsWithSeq_iff_ex _ _).mp hs
  have hhttp : ∀ c ∈ (("http" : String).data), isJsWs c = false := by decide
  have hne : (("http" : String).data) ≠ [] := by decide
  unfold cleanTextStr at h
  by_cases hl : (String.mk (cleanChars s.data)).length > 0
  · rw [if_pos hl] at h
    have hv : v = String.mk (cleanChars s.data) := by
      exact ((Option.some.injEq _ _).mp h).symm
    obtain ⟨y, hy⟩ : ∃ y, cleanChars s.data = ("http" : String).data ++ y := by
      unfold cleanChars collapseWs
      rw [hr, collapseWsGo_nonws_append hhttp]
      exact trimWs_nonws_head hhttp hne
    rw [hv]
    show startsWithSeq ("http" : String).data (String.mk (cleanChars s.data)).data = true
    rw [show (String.mk (cleanChars s.data)).data = cleanChars s.data from rfl, hy]
    exact (startsWithSeq_iff_ex _ _).mpr ⟨y, rfl⟩
  · rw [if_neg hl] at h
    exact absurd h (by simp)

/-- The images/floorplans normalization step of `normalizeProperty` is
stable: re-absolutizing and re-deduping an already absolutized,
deduplicated list changes nothing. -/
theorem absListStable (l : List String) :
    uniqueArrayO ((uniqueArrayO (l.map ensureAbsoluteUrlStr)).map ensureAbsoluteUrlStr)
      = uniqueArrayO (l.map ensureAbsoluteUrlStr) := by
  have hmem : ∀ v ∈ uniqueArrayO (l.map ensureAbsoluteUrlStr),
      cleanTextStr v = some v ∧ ensureAbsoluteUrlStr v = some v := by
    intro v hv
    have h1 := (uniqueArrayGo_mem hv).1
    obtain ⟨s, hs1, hs2⟩ := uniqueArrayGo_mem_src hv
    obtain ⟨u, _, hu2⟩ := List.mem_map.mp hs1
    have hhttp_s : strStartsWith s "http" = true := ensureAbsoluteUrlStr_http hu2
    have hhttp_v : strStartsWith v "http" = true := cleanTextStr_http hhttp_s hs2
    have hvne : v ≠ "" := by
      intro hv0; subst hv0
      rw [show cleanTextStr "" = none from by decide] at h1
      exact absurd h1 (by simp)
    refine ⟨h1, ?_⟩
    unfold ensureAbsoluteUrlStr
    rw [if_neg hvne, if_pos hhttp_v]
  have hmap : (uniqueArrayO (l.map ensureAbsoluteUrlStr)).map ensureAbsoluteUrlStr
      = (uniqueArrayO (l.map ensureAbsoluteUrlStr)).map some :=
    List.map_congr_left (fun v hv => (hmem v hv).2)
  rw [hmap]
  exact uniqueArrayGo_fixed _ _ (uniqueArrayGo_nodup _ _)
    (fun e he => (uniqueArrayGo_mem he).1) (by simp)


/-! ## Stability lemmas for `normalizeProperty` -/

theorem cleanTextStr_ne_empty {s t : String} (h : cleanTextStr s = some t) :
    t ≠ "" := by
  unfold cleanTextStr at h
  by_cases hl : (String.mk (cleanChars s.data)).length > 0
  · rw [if_pos hl] at h
    intro ht
    have hx := (Option.some.injEq _ _).mp h
    rw [hx, ht] at hl
    simp at hl
  · rw [if_neg hl] at h
    exact absurd h (by simp)

theorem strTruthy_cleanText (x : Option String) :
    strTruthy (cleanText x) = (cleanText x).isSome := by
  cases x with
  | none => rfl
  | some s =>
    show strTruthy (cleanTextStr s) = (cleanTextStr s).isSome
    cases h : cleanTextStr s with
    | none => rfl
    | some t => simp [strTruthy, cleanTextStr_ne_empty h]

theorem jsOr_self (a : Option String) : jsOr a a = a := by
  unfold jsOr; split <;> rfl

theorem jsOr_of_truthy {a : Option String} (h : strTruthy a = true)
    (b : Option String) : jsOr a b = a := by
  unfold jsOr; rw [h]; rfl

theorem jsOr_of_falsy {a : Option String} (h : strTruthy a = false)
    (b : Option String) : jsOr a b = b := by
  unfold jsOr; rw [h]; rfl

theorem cleanText_cleanText_some {t : String} (h : cleanTextStr t = some t) :
    cleanText (some t) = some t := h

/-- Every value produced by `inferPropertyType` is a fixed point of
`cleanTextStr` (the taxonomy constants contain no whitespace runs). -/
theorem infer_clean {x : Option String} {r : String}
    (h : inferPropertyType x = some r) : cleanTextStr r = some r := by
  cases x with
  | none => exact absurd h (by simp [inferPropertyType])
  | some s =>
    rw [show inferPropertyType (some s)
        = (if s = "" then none
           else (List.find? (fun pr => pr.1 (s.data.map Char.toLower))
             PROPERTY_TYPE_PATTERNS).map (fun pr => pr.2)) from rfl] at h
    by_cases hs : s = ""
    · rw [if_pos hs] at h; exact absurd h (by simp)
    · rw [if_neg hs] at h
      simp only [Option.map_eq_some'] at h
      obtain ⟨pr, hfind, hr⟩ := h
      have hmem := List.mem_of_find?_eq_some hfind
      subst hr
      simp only [PROPERTY_TYPE_PATTERNS, List.mem_cons, List.not_mem_nil,
        or_false] at hmem
      rcases hmem with h | h | h | h | h | h | h | h | h | h | h <;> rw [h] <;> decide

theorem cleanAgentDetails_idem {ad ad' : AgentDetails}
    (h : cleanAgentDetails ad = some ad') : cleanAgentDetails ad' = some ad' := by
  have hform : ad' =
      { name := cleanText ad.name, phone := cleanText ad.phone,
        address := cleanText ad.address, website := cleanText ad.website } ∧
      ¬((cleanText ad.name = none && cleanText ad.phone = none &&
        cleanText ad.address = none && cleanText ad.website = none) = true) := by
    unfold cleanAgentDetails at h
    by_cases hb : (cleanText ad.name = none && cleanText ad.phone = none &&
        cleanText ad.address = none && cleanText ad.website = none) = true
    · rw [if_pos hb] at h; exact absurd h (by simp)
    · rw [if_neg hb] at h
      exact ⟨((Option.some.injEq _ _).mp h).symm, hb⟩
  obtain ⟨had, hb⟩ := hform
  subst had
  unfold cleanAgentDetails
  simp only [cleanText_idem]
  rw [if_neg hb]

/-! ### Details-map lemmas -/

theorem objInsert_mem {m : DetailsMap} {k v : String} {x : String × String}
    (h : x ∈ objInsert m k v) : x = (k, v) ∨ x ∈ m := by
  unfold objInsert at h
  by_cases ha : m.any (fun kv => kv.1 = k) = true
  · rw [if_pos ha] at h
    obtain ⟨y, hy, hxy⟩ := List.mem_map.mp h
    by_cases hk : y.1 = k
    · rw [if_pos hk] at hxy; exact Or.inl hxy.symm
    · rw [if_neg hk] at hxy; exact Or.inr (hxy ▸ hy)
  · rw [if_neg ha] at h
    rcases List.mem_append.mp h with h1 | h1
    · exact Or.inr h1
    · exact Or.inl (List.mem_singleton.mp h1)

theorem objInsert_keys_nodup {m : DetailsMap} {k v : String}
    (h : (m.map Prod.fst).Nodup) : ((objInsert m k v).map Prod.fst).Nodup := by
  unfold objInsert
  by_cases ha : m.any (fun kv => kv.1 = k) = true
  · rw [if_pos ha]
    have : (m.map (fun kv => if kv.1 = k then (k, v) else kv)).map Prod.fst
        = m.map Prod.fst := by
      rw [List.map_map]
      refine List.map_congr_left (fun kv _ => ?_)
      by_cases hk : kv.1 = k
      · simp [hk]
      · simp [hk]
    rw [this]; exact h
  · rw [if_neg ha]
    rw [List.map_append]
    simp only [List.map_cons, List.map_nil]
    rw [List.nodup_append]
    refine ⟨h, List.nodup_singleton _, ?_⟩
    intro a hmem hsing
    simp only [List.mem_singleton] at hsing
    subst hsing
    obtain ⟨kv, hkv, hfst⟩ := List.mem_map.mp hmem
    exact ha (List.any_eq_true.mpr ⟨kv, hkv, by simp [hfst]⟩)

theorem objInsert_fresh {m : DetailsMap} {k : String}
    (h : ∀ kv ∈ m, kv.1 ≠ k) (v : String) : objInsert m k v = m ++ [(k, v)] := by
  have hnc : ¬(m.any (fun kv => kv.1 = k) = true) := by
    intro hany
    obtain ⟨kv, hkv, hp⟩ := List.any_eq_true.mp hany
    exact h kv hkv (by simpa using hp)
  unfold objInsert
  rw [if_neg hnc]

/-- Entries produced by the details cleaning fold are fixed points of
`cleanTextStr`. -/
theorem cleanDetailsFold_fixed (d : DetailsMap) :
    ∀ acc : DetailsMap,
      (∀ x ∈ acc, cleanTextStr x.1 = some x.1 ∧ cleanTextStr x.2 = some x.2) →
      ∀ x ∈ d.foldl cleanDetailsStep acc,
        cleanTextStr x.1 = some x.1 ∧ cleanTextStr x.2 = some x.2 := by
  induction d with
  | nil => intro acc hacc x hx; exact hacc x hx
  | cons kv rest ih =>
    intro acc hacc x hx
    rw [List.foldl_cons] at hx
    refine ih _ ?_ x hx
    intro y hy
    unfold cleanDetailsStep at hy
    cases hk : cleanTextStr kv.1 with
    | none => rw [hk] at hy; exact hacc y hy
    | some k' =>
      cases hv : cleanTextStr kv.2 with
      | none => rw [hk, hv] at hy; exact hacc y hy
      | some v' =>
        rw [hk, hv] at hy
        rcases objInsert_mem hy with h1 | h1
        · subst h1
          exact ⟨cleanTextStr_fix hk, cleanTextStr_fix hv⟩
        · exact hacc y h1

/-- The details cleaning fold keeps keys unique. -/
theorem cleanDetailsFold_nodup (d : DetailsMap) :
    ∀ acc : DetailsMap, ((acc.map Prod.fst).Nodup) →
      ((d.foldl cleanDetailsStep acc).map Prod.fst).Nodup := by
  induction d with
  | nil => intro acc hacc; exact hacc
  | cons kv rest ih =>
    intro acc hacc
    rw [List.foldl_cons]
    refine ih _ ?_
    unfold cleanDetailsStep
    cases hk : cleanTextStr kv.1 with
    | none => exact hacc
    | some k' =>
      cases hv : cleanTextStr kv.2 with
      | none => exact hacc
      | some v' => exact objInsert_keys_nodup hacc

/-- Refolding an already cleaned details map reproduces it. -/
theorem cleanDetailsFold_refold (d : DetailsMap) :
    ∀ acc : DetailsMap,
      (∀ x ∈ d, cleanTextStr x.1 = some x.1 ∧ cleanTextStr x.2 = some x.2) →
      (((acc ++ d).map Prod.fst).Nodup) →
      d.foldl cleanDetailsStep acc = acc ++ d := by
  induction d with
  | nil => intro acc _ _; simp
  | cons kv rest ih =>
    intro acc hfix hnd
    rw [List.foldl_cons]
    have hkv := hfix kv (List.mem_cons_self _ _)
    have hfst : ∀ x ∈ acc, x.1 ≠ kv.1 := by
      intro x hx hx1
      rw [List.map_append, List.nodup_append] at hnd
      exact hnd.2.2 (List.mem_map_of_mem _ hx)
        (by rw [List.map_cons, hx1]; exact List.mem_cons_self _ _)
    have hstep : cleanDetailsStep acc kv = acc ++ [kv] := by
      unfold cleanDetailsStep
      rw [hkv.1, hkv.2]
      show objInsert acc kv.1 kv.2 = acc ++ [kv]
      rw [objInsert_fresh hfst]
    rw [hstep]
    have : (acc ++ [kv]) ++ rest = acc ++ (kv :: rest) := by simp
    rw [← this] at hnd ⊢
    exact ih _ (fun x hx => hfix x (List.mem_cons_of_mem _ hx)) hnd

/-- `cleanDetails` output is a fixed point of `cleanDetails`. -/
theorem cleanDetails_idem {d d' : DetailsMap}
    (h : cleanDetails d = some d') : cleanDetails d' = some d' := by
  unfold cleanDetails at h ⊢
  by_cases hnil : d.foldl cleanDetailsStep [] = []
  · rw [if_pos hnil] at h; exact absurd h (by simp)
  · rw [if_neg hnil] at h
    have hd : d' = d.foldl cleanDetailsStep [] := ((Option.some.injEq _ _).mp h).symm
    have hfix := cleanDetailsFold_fixed d [] (by simp)
    have hnd := cleanDetailsFold_nodup d [] (by simp)
    have hrefold : d'.foldl cleanDetailsStep [] = d' := by
      have := cleanDetailsFold_refold d' []
        (fun x hx => hfix x (hd ▸ hx)) (by simpa using hd ▸ hnd)
      simpa using this
    rw [hrefold, if_neg (hd ▸ hnil)]

/-! ### Price stability -/

/-- After one pass, a normalized price is a fixed point of a further
pass when its amount is already a number or null. -/
theorem normalizePrice_stable {pr : Price}
    (h : (∃ q, pr.amount = JVal.num q) ∨ pr.amount = JVal.null) :
    normalizePrice (normalizePrice pr) = normalizePrice pr := by
  unfold normalizePrice
  rw [Price.mk.injEq]
  refine ⟨?_, ?_, ?_⟩
  · rcases h with ⟨q, hq⟩ | hq <;> rw [hq] <;> rfl
  · by_cases hc : strTruthy pr.currency = true
    · rw [jsOr_of_truthy hc, jsOr_of_truthy hc]
    · have hcf : strTruthy pr.currency = false := by simpa using hc
      rw [jsOr_of_falsy hcf,
        jsOr_of_truthy (show strTruthy (some "GBP") = true from by decide)]
  · cases hdp0 : jsValCleanText pr.displayPrice with
    | none => rfl
    | some t =>
      have ht : cleanTextStr t = some t := by
        cases dp : pr.displayPrice <;> rw [dp] at hdp0
        · exact absurd hdp0 (by simp [jsValCleanText])
        · exact absurd hdp0 (by simp [jsValCleanText])
        · exact cleanTextStr_fix hdp0
        · exact cleanTextStr_fix hdp0
      show (match cleanTextStr t with
            | some u => JVal.str u
            | none => JVal.null) = JVal.str t
      rw [ht]


/-! ### Field formulas of `normalizeProperty` (definitional) -/

theorem norm_address (p : Property) :
    (normalizeProperty p).address = cleanText p.address := rfl

theorem norm_title (p : Property) :
    (normalizeProperty p).title = jsOr (cleanText p.title) (cleanText p.address) := rfl

theorem norm_description (p : Property) :
    (normalizeProperty p).description = cleanText p.description := rfl

theorem norm_agentDetails (p : Property) :
    (normalizeProperty p).agentDetails =
      match p.agentDetails with
      | none => p.agentDetails
      | some ad => cleanAgentDetails ad := rfl

theorem norm_images (p : Property) :
    (normalizeProperty p).images =
      p.images.map (fun l => uniqueArrayO (l.map ensureAbsoluteUrlStr)) := rfl

theorem norm_floorplans (p : Property) :
    (normalizeProperty p).floorplans =
      p.floorplans.map (fun l => uniqueArrayO (l.map ensureAbsoluteUrlStr)) := rfl

theorem norm_keyFeatures (p : Property) :
    (normalizeProperty p).keyFeatures = p.keyFeatures.map uniqueArray := rfl

theorem norm_features (p : Property) :
    (normalizeProperty p).features = p.features.map uniqueArray := rfl

theorem norm_details (p : Property) :
    (normalizeProperty p).details =
      match p.details with
      | none => p.details
      | some d => cleanDetails d := rfl

theorem norm_price (p : Property) :
    (normalizeProperty p).price =
      match p.price with
      | none => p.price
      | some pr => some (normalizePrice pr) := rfl

/-! ### Second-pass stability, field by field -/

theorem cleanText_fix_out {x : Option String} {t : String}
    (h : cleanText x = some t) : cleanTextStr t = some t := by
  cases x with
  | none => exact absurd h (by simp [cleanText])
  | some s => exact cleanTextStr_fix h

theorem cleanText_jsOr_cleanText (x y : Option String) :
    cleanText (jsOr (cleanText x) (cleanText y)) = jsOr (cleanText x) (cleanText y) := by
  by_cases h : strTruthy (cleanText x) = true
  · rw [jsOr_of_truthy h, cleanText_idem]
  · have hf : strTruthy (cleanText x) = false := by simpa using h
    rw [jsOr_of_falsy hf, cleanText_idem]

theorem fixed_falsy_none {x : Option String}
    (hfix : cleanText x = x) (hf : strTruthy x = false) : x = none := by
  cases x with
  | none => rfl
  | some s =>
    have hs : s = "" := by simpa [strTruthy] using hf
    subst hs
    exact absurd hfix (by decide)

theorem jsOr_eq_none {a b : Option String} (h : jsOr a b = none) : b = none := by
  by_cases ht : strTruthy a = true
  · rw [jsOr_of_truthy ht] at h
    cases a with
    | none => simp [strTruthy] at ht
    | some s => exact absurd h (by simp)
  · rwa [jsOr_of_falsy (by simpa using ht)] at h

theorem cleanAgentDetails_formula {ad ad' : AgentDetails}
    (h : cleanAgentDetails ad = some ad') :
    ad' = { name := cleanText ad.name, phone := cleanText ad.phone,
            address := cleanText ad.address, website := cleanText ad.website } := by
  unfold cleanAgentDetails at h
  by_cases hb : (cleanText ad.name = none && cleanText ad.phone = none &&
      cleanText ad.address = none && cleanText ad.website = none) = true
  · rw [if_pos hb] at h; exact absurd h (by simp)
  · rw [if_neg hb] at h
    exact ((Option.some.injEq _ _).mp h).symm

theorem norm2_address (p : Property) :
    (normalizeProperty (normalizeProperty p)).address = (normalizeProperty p).address := by
  rw [norm_address, norm_address, cleanText_idem]

theorem norm2_title (p : Property) :
    (normalizeProperty (normalizeProperty p)).title = (normalizeProperty p).title := by
  rw [norm_title, norm_title, norm_address]
  rw [cleanText_idem, cleanText_jsOr_cleanText]
  by_cases h : strTruthy (jsOr (cleanText p.title) (cleanText p.address)) = true
  · rw [jsOr_of_truthy h]
  · have hf : strTruthy (jsOr (cleanText p.title) (cleanText p.address)) = false := by
      simpa using h
    rw [jsOr_of_falsy hf]
    -- the first argument is falsy and clean, hence none; so the whole jsOr was none
    have hone : jsOr (cleanText p.title) (cleanText p.address) = none := by
      refine fixed_falsy_none ?_ hf
      exact cleanText_jsOr_cleanText p.title p.address
    rw [hone]
    exact jsOr_eq_none hone

theorem norm2_description (p : Property) :
    (normalizeProperty (normalizeProperty p)).description
      = (normalizeProperty p).description := by
  rw [norm_description, norm_description, cleanText_idem]

theorem norm2_agentDetails (p : Property) :
    (normalizeProperty (normalizeProperty p)).agentDetails
      = (normalizeProperty p).agentDetails := by
  rw [norm_agentDetails, norm_agentDetails]
  cases hp : p.agentDetails with
  | none => simp [hp]
  | some ad =>
    cases hc : cleanAgentDetails ad with
    | none => simp [hc]
    | some ad' =>
      have h2 := cleanAgentDetails_idem hc
      simp [hc, h2]

theorem norm_agent_fix (p : Property) :
    cleanText ((normalizeProperty p).agent) = (normalizeProperty p).agent := by
  have hagent : (normalizeProperty p).agent = jsOr (cleanText p.agent)
      (match (normalizeProperty p).agentDetails with
       | some ad => ad.name
       | none => none) := rfl
  rw [hagent]
  by_cases h : strTruthy (cleanText p.agent) = true
  · rw [jsOr_of_truthy h, cleanText_idem]
  · have hf : strTruthy (cleanText p.agent) = false := by simpa using h
    rw [jsOr_of_falsy hf]
    rw [norm_agentDetails]
    cases hp : p.agentDetails with
    | none => rfl
    | some ad =>
      cases hc : cleanAgentDetails ad with
      | none => simp only [hc]; rfl
      | some ad' =>
        simp only [hc]
        have hform := cleanAgentDetails_formula hc
        rw [hform]
        show cleanText (cleanText ad.name) = cleanText ad.name
        exact cleanText_idem _

theorem norm2_agent (p : Property) :
    (normalizeProperty (normalizeProperty p)).agent = (normalizeProperty p).agent := by
  have hAD := norm2_agentDetails p
  show jsOr (cleanText ((normalizeProperty p).agent))
      (match (normalizeProperty (normalizeProperty p)).agentDetails with
       | some ad => ad.name
       | none => none) = (normalizeProperty p).agent
  rw [hAD, norm_agent_fix]
  by_cases h : strTruthy ((normalizeProperty p).agent) = true
  · rw [jsOr_of_truthy h]
  · have hf : strTruthy ((normalizeProperty p).agent) = false := by simpa using h
    rw [jsOr_of_falsy hf]
    have hnone : (normalizeProperty p).agent = none :=
      fixed_falsy_none (norm_agent_fix p) hf
    -- the agent is none, so the name from the cleaned agent details is none too
    have hform : (normalizeProperty p).agent = jsOr (cleanText p.agent)
        (match (normalizeProperty p).agentDetails with
         | some ad => ad.name
         | none => none) := rfl
    rw [hnone] at hform
    rw [hnone]
    exact jsOr_eq_none hform.symm

theorem norm2_propertyType (p : Property) :
    (normalizeProperty (normalizeProperty p)).propertyType
      = (normalizeProperty p).propertyType := by
  show (match cleanText ((normalizeProperty p).propertyType) with
        | some t => some t
        | none =>
          inferPropertyType (some
            (((normalizeProperty (normalizeProperty p)).title).getD "" ++ " " ++
             ((normalizeProperty (normalizeProperty p)).description).getD "" ++ " " ++
             ((normalizeProperty (normalizeProperty p)).address).getD ""))) = _
  rw [norm2_title, norm2_description, norm2_address]
  have htext : (normalizeProperty p).propertyType =
      (match cleanText p.propertyType with
       | some t => some t
       | none =>
         inferPropertyType (some
           (((normalizeProperty p).title).getD "" ++ " " ++
            ((normalizeProperty p).description).getD "" ++ " " ++
            ((normalizeProperty p).address).getD ""))) := rfl
  cases hpt : cleanText p.propertyType with
  | some t =>
    have hfix : cleanTextStr t = some t := cleanText_fix_out hpt
    rw [htext, hpt]
    show (match cleanText (some t) with
          | some u => some u
          | none => inferPropertyType _) = some t
    show (match cleanTextStr t with
          | some u => some u
          | none => inferPropertyType _) = some t
    rw [hfix]
  | none =>
    rw [htext, hpt]
    cases hinf : inferPropertyType (some
        (((normalizeProperty p).title).getD "" ++ " " ++
         ((normalizeProperty p).description).getD "" ++ " " ++
         ((normalizeProperty p).address).getD "")) with
    | some c =>
      have hfix : cleanTextStr c = some c := infer_clean hinf
      show (match cleanTextStr c with
            | some u => some u
            | none => some c) = some c
      rw [hfix]
    | none => rfl

theorem norm2_images (p : Property) :
    (normalizeProperty (normalizeProperty p)).images = (normalizeProperty p).images := by
  rw [norm_images, norm_images]
  cases hp : p.images with
  | none => rfl
  | some l =>
    show some (uniqueArrayO ((uniqueArrayO (l.map ensureAbsoluteUrlStr)).map
      ensureAbsoluteUrlStr)) = some (uniqueArrayO (l.map ensureAbsoluteUrlStr))
    rw [absListStable]

theorem norm2_floorplans (p : Property) :
    (normalizeProperty (normalizeProperty p)).floorplans
      = (normalizeProperty p).floorplans := by
  rw [norm_floorplans, norm_floorplans]
  cases hp : p.floorplans with
  | none => rfl
  | some l =>
    show some (uniqueArrayO ((uniqueArrayO (l.map ensureAbsoluteUrlStr)).map
      ensureAbsoluteUrlStr)) = some (uniqueArrayO (l.map ensureAbsoluteUrlStr))
    rw [absListStable]

theorem norm2_keyFeatures (p : Property) :
    (normalizeProperty (normalizeProperty p)).keyFeatures
      = (normalizeProperty p).keyFeatures := by
  rw [norm_keyFeatures, norm_keyFeatures]
  cases hp : p.keyFeatures with
  | none => rfl
  | some l =>
    show some (uniqueArray (uniqueArray l)) = some (uniqueArray l)
    rw [uniqueArray_idem]

theorem norm2_features (p : Property) :
    (normalizeProperty (normalizeProperty p)).features
      = (normalizeProperty p).features := by
  rw [norm_features, norm_features]
  cases hp : p.features with
  | none => rfl
  | some l =>
    show some (uniqueArray (uniqueArray l)) = some (uniqueArray l)
    rw [uniqueArray_idem]

theorem norm2_details (p : Property) :
    (normalizeProperty (normalizeProperty p)).details = (normalizeProperty p).details := by
  rw [norm_details, norm_details]
  cases hp : p.details with
  | none => simp [hp]
  | some d =>
    cases hc : cleanDetails d with
    | none => simp [hc]
    | some d' =>
      have h2 := cleanDetails_idem hc
      simp [hc, h2]

theorem norm3_price (p : Property) :
    (normalizeProperty (normalizeProperty (normalizeProperty p))).price
      = (normalizeProperty (normalizeProperty p)).price := by
  rw [norm_price (normalizeProperty (normalizeProperty p)),
      norm_price (normalizeProperty p), norm_price p]
  cases hp : p.price with
  | none => rfl
  | some pr =>
    show some (normalizePrice (normalizePrice (normalizePrice pr)))
        = some (normalizePrice (normalizePrice pr))
    rw [normalizePrice_stable]
    cases h : jsToNumber pr.amount with
    | some q =>
      refine Or.inl ⟨q, ?_⟩
      show (match jsToNumber pr.amount with
            | some q => JVal.num q
            | none => JVal.null) = JVal.num q
      rw [h]
    | none =>
      refine Or.inr ?_
      show (match jsToNumber pr.amount with
            | some q => JVal.num q
            | none => JVal.null) = JVal.null
      rw [h]


/-! ## Claim C7 -/

/-- C7: `cleanText` is idempotent, and applying the post-merge
normalization step twice to an already-normalized record (any record of
the form `normalizeProperty p`) yields the same record as applying it
once. (Note the one-pass function itself is not idempotent: a null
price amount becomes `0` on the second pass; from the second pass on
the record is a fixed point.) -/
theorem C7_normalization_idempotent :
    (∀ x : Option String, cleanText (cleanText x) = cleanText x) ∧
    (∀ p : Property,
      normalizeProperty (normalizeProperty (normalizeProperty p))
        = normalizeProperty (normalizeProperty p)) := by
  refine ⟨cleanText_idem, ?_⟩
  intro p
  exact Property.ext rfl rfl (norm2_address _) (norm2_title _) (norm2_description _)
    (norm2_propertyType _) rfl rfl (norm2_agent _) (norm2_agentDetails _) (norm3_price p)
    rfl (norm2_images _) (norm2_floorplans _) (norm2_keyFeatures _) (norm2_features _)
    (norm2_details _) rfl rfl


/-! ## Claim C1: `mergePropertyData` -/

theorem setIfMissingStr_pop {b : Option String} (e : Option String)
    (h : strTruthy b = true) : setIfMissingStr b e = b := by
  cases b with
  | none => simp [strTruthy] at h
  | some s =>
    have hs : s ≠ "" := by simpa [strTruthy] using h
    cases e with
    | none => rfl
    | some v => simp [setIfMissingStr, hs]

theorem setIfMissingStr_unset {b e : Option String}
    (hb : strTruthy b = false) (he : e ≠ none) : setIfMissingStr b e = e := by
  cases e with
  | none => exact absurd rfl he
  | some v =>
    cases b with
    | none => rfl
    | some s =>
      have hs : s = "" := by simpa [strTruthy] using hb
      simp [setIfMissingStr, hs]

theorem setIfMissingStr_none (b : Option String) : setIfMissingStr b none = b := rfl

theorem setIfMissingNum_pop {b : Option ℚ} (e : Option ℚ) (h : b ≠ none) :
    setIfMissingNum b e = b := by
  cases b with
  | none => exact absurd rfl h
  | some q => cases e <;> rfl

theorem setIfMissingNum_unset {e : Option ℚ} (he : e ≠ none) :
    setIfMissingNum none e = e := by
  cases e with
  | none => exact absurd rfl he
  | some q => rfl

theorem setIfMissingAgent_pop {b : Option AgentDetails} (e : Option AgentDetails)
    (h : b ≠ none) : setIfMissingAgent b e = b := by
  cases b with
  | none => exact absurd rfl h
  | some q => cases e <;> rfl

theorem setIfMissingAgent_unset {e : Option AgentDetails} (he : e ≠ none) :
    setIfMissingAgent none e = e := by
  cases e with
  | none => exact absurd rfl he
  | some q => rfl

theorem mergePrice_pop {bp : Price} (e : Option Price)
    (h : (bp.amount.truthy || bp.displayPrice.truthy) = true) :
    mergePrice (some bp) e = some bp := by
  cases e with
  | none => rfl
  | some ep =>
    unfold mergePrice
    rcases Bool.or_eq_true_iff.mp h with h1 | h1 <;> simp [h1]

theorem mergePrice_unset_none {e : Option Price} (he : e ≠ none) :
    mergePrice none e = e := by
  cases e with
  | none => exact absurd rfl he
  | some ep => rfl

theorem mergePrice_unset_empty {bp : Price} {ep : Price}
    (h : (bp.amount.truthy || bp.displayPrice.truthy) = false) :
    mergePrice (some bp) (some ep) = some ep := by
  unfold mergePrice
  simp only [Bool.or_eq_false_iff] at h
  simp [h.1, h.2]

/-! ### Lookup lemmas for the details merge -/


theorem dmLookup_append (a : String) (l1 l2 : DetailsMap) :
    dmLookup a (l1 ++ l2) = (dmLookup a l1).or (dmLookup a l2) := by
  induction l1 with
  | nil => simp [dmLookup]
  | cons kv rest ih =>
    by_cases h : a = kv.1
    · simp [dmLookup, h]
    · simp only [List.cons_append, dmLookup, if_neg h]
      exact ih

theorem dmLookup_map_update (m : DetailsMap) (k v a : String) :
    dmLookup a (m.map (fun kv => if kv.1 = k then (k, v) else kv))
      = if a = k then (if m.any (fun kv => kv.1 = k) then some v else none)
        else dmLookup a m := by
  induction m with
  | nil => simp [dmLookup]
  | cons kv rest ih =>
    obtain ⟨k1, v1⟩ := kv
    by_cases hk : k1 = k
    · subst hk
      by_cases ha : a = k1
      · subst ha
        simp [dmLookup, List.any_cons]
      · simp only [List.map_cons, dmLookup]
        rw [ih]
        rw [if_neg ha, if_neg ha]
        simp [ha]
    · by_cases ha : a = k1
      · subst ha
        have hak : ¬(a = k) := hk
        simp [dmLookup, hk, hak, List.map_cons]
      · simp only [List.map_cons, dmLookup, if_neg hk]
        rw [if_neg ha, if_neg ha, ih]
        by_cases hax : a = k
        · rw [if_pos hax, if_pos hax, List.any_cons,
              show (decide (k1 = k)) = false from by simp [hk], Bool.false_or]
        · rw [if_neg hax, if_neg hax]

theorem dmLookup_mem_key {m : DetailsMap} {a : String} {w : String}
    (h : dmLookup a m = some w) : a ∈ m.map Prod.fst := by
  induction m with
  | nil => simp [dmLookup] at h
  | cons kv rest ih =>
    by_cases hk : a = kv.1
    · simp [hk]
    · rw [dmLookup, if_neg hk] at h
      simp [ih h]

theorem dmLookup_not_mem_none {m : DetailsMap} {a : String}
    (h : a ∉ m.map Prod.fst) : dmLookup a m = none := by
  induction m with
  | nil => rfl
  | cons kv rest ih =>
    simp only [List.map_cons, List.mem_cons] at h
    push_neg at h
    rw [dmLookup, if_neg h.1]
    exact ih h.2

theorem dmLookup_objInsert (m : DetailsMap) (k v a : String) :
    dmLookup a (objInsert m k v)
      = if a = k then some v else dmLookup a m := by
  unfold objInsert
  by_cases hany : m.any (fun kv => kv.1 = k) = true
  · rw [if_pos hany, dmLookup_map_update, hany]
    by_cases ha : a = k <;> simp [ha]
  · rw [if_neg hany, dmLookup_append]
    by_cases ha : a = k
    · subst ha
      have hnone : dmLookup a m = none := by
        cases hl : dmLookup a m with
        | none => rfl
        | some w =>
          have hmem := dmLookup_mem_key hl
          obtain ⟨kv, hkv, hfst⟩ := List.mem_map.mp hmem
          exact absurd (List.any_eq_true.mpr ⟨kv, hkv, by simp [hfst]⟩) hany
      simp [hnone, dmLookup]
    · simp [dmLookup, ha, Option.or]
      cases hl : dmLookup a m <;> simp

theorem dmLookup_objSpread (b : DetailsMap) :
    ∀ a : DetailsMap, (b.map Prod.fst).Nodup →
      ∀ k, dmLookup k (objSpread a b)
        = (dmLookup k b).or (dmLookup k a) := by
  induction b with
  | nil => intro a _ k; simp [objSpread, dmLookup]
  | cons kv rest ih =>
    intro a hnd k
    have hnd2 : kv.1 ∉ rest.map Prod.fst ∧ (rest.map Prod.fst).Nodup := by
      rw [List.map_cons, List.nodup_cons] at hnd
      exact hnd
    have hstep : objSpread a (kv :: rest) = objSpread (objInsert a kv.1 kv.2) rest := by
      simp [objSpread]
    rw [hstep, ih _ hnd2.2 k, dmLookup_objInsert]
    by_cases hk : k = kv.1
    · subst hk
      have hr : dmLookup kv.1 rest = none := dmLookup_not_mem_none hnd2.1
      simp [hr, dmLookup]
    · simp only [dmLookup]
      rw [if_neg hk, if_neg hk]


/-- C1 counterexample: a price object with null amount and null display
text is populated in the claim's sense (non-null), yet `mergePropertyData`
overwrites it with the later partial's price. -/
theorem C1_counterexample :
    (({ price := some (⟨JVal.null, some "GBP", JVal.null⟩ : Price) } : Property).price ≠ none) ∧
    (mergePropertyData
        { price := some (⟨JVal.null, some "GBP", JVal.null⟩ : Price) }
        { price := some (⟨JVal.num 500000, some "GBP", JVal.str "£500,000"⟩ : Price) }).price
      = some (⟨JVal.num 500000, some "GBP", JVal.str "£500,000"⟩ : Price) ∧
    some (⟨JVal.num 500000, some "GBP", JVal.str "£500,000"⟩ : Price) ≠
      ({ price := some (⟨JVal.null, some "GBP", JVal.null⟩ : Price) } : Property).price := by
  refine ⟨by decide, by decide, by decide⟩

/-- C1 (amended): `mergePropertyData` is first-writer-wins on the scalar
fields (populated means non-null and non-empty-string); for `price`,
"populated" means the stored price object has a truthy amount or a
truthy display text — an all-empty price object is replaced; the list
fields are unioned in order and deduplicated; `details` merges
key-by-key with the accumulator winning; and the spec's A/B example
holds. -/
theorem C1_mergePropertyData_amended :
    (∀ base extra : Property,
      ((strTruthy base.address = true →
          (mergePropertyData base extra).address = base.address) ∧
        (strTruthy base.address = false → extra.address ≠ none →
          (mergePropertyData base extra).address = extra.address) ∧
        (extra.address = none →
          (mergePropertyData base extra).address = base.address)) ∧
      ((strTruthy base.title = true →
          (mergePropertyData base extra).title = base.title) ∧
        (strTruthy base.title = false → extra.title ≠ none →
          (mergePropertyData base extra).title = extra.title) ∧
        (extra.title = none →
          (mergePropertyData base extra).title = base.title)) ∧
      ((strTruthy base.description = true →
          (mergePropertyData base extra).description = base.description) ∧
        (strTruthy base.description = false → extra.description ≠ none →
          (mergePropertyData base extra).description = extra.description) ∧
        (extra.description = none →
          (mergePropertyData base extra).description = base.description)) ∧
      ((strTruthy base.propertyType = true →
          (mergePropertyData base extra).propertyType = base.propertyType) ∧
        (strTruthy base.propertyType = false → extra.propertyType ≠ none →
          (mergePropertyData base extra).propertyType = extra.propertyType) ∧
        (extra.propertyType = none →
          (mergePropertyData base extra).propertyType = base.propertyType)) ∧
      ((strTruthy base.agent = true →
          (mergePropertyData base extra).agent = base.agent) ∧
        (strTruthy base.agent = false → extra.agent ≠ none →
          (mergePropertyData base extra).agent = extra.agent) ∧
        (extra.agent = none →
          (mergePropertyData base extra).agent = base.agent)) ∧
      ((base.bedrooms ≠ none →
          (mergePropertyData base extra).bedrooms = base.bedrooms) ∧
        (base.bedrooms = none →
          (mergePropertyData base extra).bedrooms = extra.bedrooms)) ∧
      ((base.bathrooms ≠ none →
          (mergePropertyData base extra).bathrooms = base.bathrooms) ∧
        (base.bathrooms = none →
          (mergePropertyData base extra).bathrooms = extra.bathrooms)) ∧
      ((base.agentDetails ≠ none →
          (mergePropertyData base extra).agentDetails = base.agentDetails) ∧
        (base.agentDetails = none →
          (mergePropertyData base extra).agentDetails = extra.agentDetails)) ∧
      ((∀ bp, base.price = some bp →
          (bp.amount.truthy || bp.displayPrice.truthy) = true →
          (mergePropertyData base extra).price = base.price) ∧
        (extra.price = none →
          (mergePropertyData base extra).price = base.price) ∧
        (base.price = none →
          (mergePropertyData base extra).price = extra.price) ∧
        (∀ bp ep, base.price = some bp → extra.price = some ep →
          (bp.amount.truthy || bp.displayPrice.truthy) = false →
          (mergePropertyData base extra).price = some ep)) ∧
      ((∀ ex, extra.images = some ex →
          (mergePropertyData base extra).images
            = some (uniqueArray (base.images.getD [] ++ ex)) ∧
          (uniqueArray (base.images.getD [] ++ ex)).Nodup) ∧
        (extra.images = none →
          (mergePropertyData base extra).images = base.images)) ∧
      ((∀ ex, extra.floorplans = some ex →
          (mergePropertyData base extra).floorplans
            = some (uniqueArray (base.floorplans.getD [] ++ ex))) ∧
        (extra.floorplans = none →
          (mergePropertyData base extra).floorplans = base.floorplans)) ∧
      ((∀ ex, extra.keyFeatures = some ex →
          (mergePropertyData base extra).keyFeatures
            = some (uniqueArray (base.keyFeatures.getD [] ++ ex))) ∧
        (extra.keyFeatures = none →
          (mergePropertyData base extra).keyFeatures = base.keyFeatures)) ∧
      ((extra.details = none →
          (mergePropertyData base extra).details = base.details) ∧
        (∀ ed, extra.details = some ed →
          ((base.details.getD []).map Prod.fst).Nodup →
          ∀ k, dmLookup k (((mergePropertyData base extra).details).getD [])
            = (dmLookup k (base.details.getD [])).or (dmLookup k ed))) ∧
      ((mergePropertyData base extra).propertyId = base.propertyId ∧
        (mergePropertyData base extra).url = base.url ∧
        (mergePropertyData base extra).extractionMethod = base.extractionMethod ∧
        (mergePropertyData base extra).isNewHome = base.isNewHome)) ∧
    mergePropertyData
        { price := some (⟨JVal.num 100000, some "GBP", JVal.str "£100,000"⟩ : Price),
          images := some ["https://img.example.com/1.jpg"] }
        { price := some (⟨JVal.num 200000, some "GBP", JVal.str "£200,000"⟩ : Price),
          images := some ["https://img.example.com/2.jpg"] }
      = { price := some (⟨JVal.num 100000, some "GBP", JVal.str "£100,000"⟩ : Price),
          images := some ["https://img.example.com/1.jpg",
            "https://img.example.com/2.jpg"] } := by
  refine ⟨fun base extra => ?_, by decide⟩
  refine ⟨⟨fun h => setIfMissingStr_pop _ h,
      fun hb he => setIfMissingStr_unset hb he,
      fun he => ?_⟩,
    ⟨fun h => setIfMissingStr_pop _ h,
      fun hb he => setIfMissingStr_unset hb he,
      fun he => ?_⟩,
    ⟨fun h => setIfMissingStr_pop _ h,
      fun hb he => setIfMissingStr_unset hb he,
      fun he => ?_⟩,
    ⟨fun h => setIfMissingStr_pop _ h,
      fun hb he => setIfMissingStr_unset hb he,
      fun he => ?_⟩,
    ⟨fun h => setIfMissingStr_pop _ h,
      fun hb he => setIfMissingStr_unset hb he,
      fun he => ?_⟩,
    ⟨fun h => setIfMissingNum_pop _ h, fun h => ?_⟩,
    ⟨fun h => setIfMissingNum_pop _ h, fun h => ?_⟩,
    ⟨fun h => setIfMissingAgent_pop _ h, fun h => ?_⟩,
    ⟨fun bp hbp ht => ?_, fun he => ?_, fun hb => ?_, fun bp ep hbp hep hf => ?_⟩,
    ⟨fun ex hex => ⟨?_, uniqueArrayGo_nodup _ _⟩, fun he => ?_⟩,
    ⟨fun ex hex => ?_, fun he => ?_⟩,
    ⟨fun ex hex => ?_, fun he => ?_⟩,
    ⟨fun he => ?_, fun ed hed hnd k => ?_⟩,
    rfl, rfl, rfl, rfl⟩
  · show setIfMissingStr base.address extra.address = base.address
    rw [he]
    exact setIfMissingStr_none _
  · show setIfMissingStr base.title extra.title = base.title
    rw [he]
    exact setIfMissingStr_none _
  · show setIfMissingStr base.description extra.description = base.description
    rw [he]
    exact setIfMissingStr_none _
  · show setIfMissingStr base.propertyType extra.propertyType = base.propertyType
    rw [he]
    exact setIfMissingStr_none _
  · show setIfMissingStr base.agent extra.agent = base.agent
    rw [he]
    exact setIfMissingStr_none _
  · show setIfMissingNum base.bedrooms extra.bedrooms = extra.bedrooms
    rw [h]
    cases extra.bedrooms <;> rfl
  · show setIfMissingNum base.bathrooms extra.bathrooms = extra.bathrooms
    rw [h]
    cases extra.bathrooms <;> rfl
  · show setIfMissingAgent base.agentDetails extra.agentDetails = extra.agentDetails
    rw [h]
    cases extra.agentDetails <;> rfl
  · show mergePrice base.price extra.price = base.price
    rw [hbp]
    exact mergePrice_pop _ ht
  · show mergePrice base.price extra.price = base.price
    rw [he]
    cases base.price <;> rfl
  · show mergePrice base.price extra.price = extra.price
    rw [hb]
    cases extra.price <;> rfl
  · show mergePrice base.price extra.price = some ep
    rw [hbp, hep]
    exact mergePrice_unset_empty hf
  · show (match extra.images with
          | none => base.images
          | some ex => some (uniqueArray (base.images.getD [] ++ ex)))
        = some (uniqueArray (base.images.getD [] ++ ex))
    rw [hex]
  · show (match extra.images with
          | none => base.images
          | some ex => some (uniqueArray (base.images.getD [] ++ ex))) = base.images
    rw [he]
  · show (match extra.floorplans with
          | none => base.floorplans
          | some ex => some (uniqueArray (base.floorplans.getD [] ++ ex)))
        = some (uniqueArray (base.floorplans.getD [] ++ ex))
    rw [hex]
  · show (match extra.floorplans with
          | none => base.floorplans
          | some ex => some (uniqueArray (base.floorplans.getD [] ++ ex)))
        = base.floorplans
    rw [he]
  · show (match extra.keyFeatures with
          | none => base.keyFeatures
          | some ex => some (uniqueArray (base.keyFeatures.getD [] ++ ex)))
        = some (uniqueArray (base.keyFeatures.getD [] ++ ex))
    rw [hex]
  · show (match extra.keyFeatures with
          | none => base.keyFeatures
          | some ex => some (uniqueArray (base.keyFeatures.getD [] ++ ex)))
        = base.keyFeatures
    rw [he]
  · show (match extra.details with
          | none => base.details
          | some ed => some (objSpread ed (base.details.getD []))) = base.details
    rw [he]
  · have hm : (mergePropertyData base extra).details
        = some (objSpread ed (base.details.getD [])) := by
      show (match extra.details with
            | none => base.details
            | some ed => some (objSpread ed (base.details.getD [])))
          = some (objSpread ed (base.details.getD []))
      rw [hed]
    rw [hm]
    exact dmLookup_objSpread _ _ hnd k

/-- C1 witness: the amended merge rules applied at concrete records. -/
theorem C1_witness :
    (mergePropertyData
        ({ address := some "1 Main St" } : Property)
        ({ address := some "2 Side Rd" } : Property)).address = some "1 Main St" ∧
    dmLookup "k"
        (((mergePropertyData
            ({ details := some [("k", "v")] } : Property)
            ({ details := some [("k", "w"), ("j", "u")] } : Property)).details).getD [])
      = (dmLookup "k" ([("k", "v")] : DetailsMap)).or
          (dmLookup "k" ([("k", "w"), ("j", "u")] : DetailsMap)) :=
  ⟨((C1_mergePropertyData_amended.1
      { address := some "1 Main St" } { address := some "2 Side Rd" }).1.1 (by decide)),
   ((C1_mergePropertyData_amended.1
      { details := some [("k", "v")] }
      { details := some [("k", "w"), ("j", "u")] }).2.2.2.2.2.2.2.2.2.2.2.2.1.2
      [("k", "w"), ("j", "u")] rfl (by decide) "k")⟩


/-! ## C2: detail-page emission and the `"failed"` tag -/

theorem norm_extractionMethod (p : Property) :
    (normalizeProperty p).extractionMethod = p.extractionMethod := rfl

theorem extractPropertyDetails_crash (page : DetailPage) (b : Property)
    (h : page.crash = true) :
    extractPropertyDetails page b = { b with extractionMethod := some "failed" } := by
  unfold extractPropertyDetails
  rw [h, if_pos rfl]

theorem extractPropertyDetails_method (page : DetailPage) (b : Property)
    (h : page.crash = false) :
    (extractPropertyDetails page b).extractionMethod = some "html-parse" ∨
    (extractPropertyDetails page b).extractionMethod = some "json-ld" ∨
    (extractPropertyDetails page b).extractionMethod = some "json-ld+embedded" ∨
    (extractPropertyDetails page b).extractionMethod = some "embedded-json" := by
  unfold extractPropertyDetails
  rw [h]
  rw [if_neg (by simp)]
  dsimp only
  split <;> split <;> simp

theorem detailHandler_method (page : DetailPage) (b : Property) (api : Option Property)
    (batch : List Property) :
    ((detailHandler page b api batch).2).extractionMethod
      = (extractPropertyDetails page b).extractionMethod := by
  unfold detailHandler
  dsimp only
  rw [norm_extractionMethod]
  split
  · cases api with
    | none => rfl
    | some e => rfl
  · rfl

/-- C2 counterexample: a detail page with no JSON-LD, no embedded JSON
and empty HTML yields a record with neither address nor title, yet its
`extractionMethod` is `"html-parse"`, not `"failed"`; the handler still
emits it (once). -/
theorem C2_counterexample :
    (extractPropertyDetails {} {}).address = none ∧
    (extractPropertyDetails {} {}).title = none ∧
    (extractPropertyDetails {} {}).extractionMethod = some "html-parse" ∧
    (extractPropertyDetails {} {}).extractionMethod ≠ some "failed" ∧
    (detailHandler {} {} none []).1.length = 1 := by
  refine ⟨by decide, by decide, by decide, by decide, by decide⟩

/-- C2 (amended): the DETAIL handler always emits exactly one
(normalized) record per processed detail page — no listing is dropped —
but the `"failed"` tag marks only the exception path of
`extractPropertyDetails`: when no exception occurs the emitted record
carries one of the four pass tags (`html-parse`, `json-ld`,
`json-ld+embedded`, `embedded-json`), never `"failed"`, even when both
address and title are still unset. -/
theorem C2_detail_emission_amended :
    (∀ (page : DetailPage) (b : Property) (api : Option Property) (batch : List Property),
      (detailHandler page b api batch).1
        = batch ++ [(detailHandler page b api batch).2] ∧
      (detailHandler page b api batch).1.length = batch.length + 1) ∧
    (∀ (page : DetailPage) (b : Property) (api : Option Property) (batch : List Property),
      page.crash = false →
      (((detailHandler page b api batch).2).extractionMethod = some "html-parse" ∨
        ((detailHandler page b api batch).2).extractionMethod = some "json-ld" ∨
        ((detailHandler page b api batch).2).extractionMethod = some "json-ld+embedded" ∨
        ((detailHandler page b api batch).2).extractionMethod = some "embedded-json") ∧
      ((detailHandler page b api batch).2).extractionMethod ≠ some "failed") ∧
    (∀ (page : DetailPage) (b : Property) (api : Option Property) (batch : List Property),
      page.crash = true →
      ((detailHandler page b api batch).2).extractionMethod = some "failed") := by
  refine ⟨fun page b api batch => ⟨rfl, ?_⟩,
    fun page b api batch h => ?_, fun page b api batch h => ?_⟩
  · rw [show (detailHandler page b api batch).1
        = batch ++ [(detailHandler page b api batch).2] from rfl]
    simp
  · have hm := detailHandler_method page b api batch
    have h4 := extractPropertyDetails_method page b h
    rw [hm]
    refine ⟨h4, ?_⟩
    rcases h4 with h1 | h1 | h1 | h1 <;> rw [h1] <;> simp
  · rw [detailHandler_method page b api batch, extractPropertyDetails_crash page b h]

/-- C2 witness: the amended statement at concrete inputs — a crashing
page is tagged `failed`; an empty page is emitted with one of the four
pass tags. -/
theorem C2_witness :
    ((detailHandler { crash := true } {} none []).2).extractionMethod = some "failed" ∧
    (((detailHandler {} {} none []).2).extractionMethod = some "html-parse" ∨
      ((detailHandler {} {} none []).2).extractionMethod = some "json-ld" ∨
      ((detailHandler {} {} none []).2).extractionMethod = some "json-ld+embedded" ∨
      ((detailHandler {} {} none []).2).extractionMethod = some "embedded-json") :=
  ⟨C2_detail_emission_amended.2.2 { crash := true } {} none [] rfl,
   (C2_detail_emission_amended.2.1 {} {} none [] rfl).1⟩


/-! ## C3: pagination model lemmas -/

theorem findSnd_map_set (l : List (String × String)) (k v : String)
    (h : l.any (fun q => q.1 = k) = true) :
    ((l.map fun q => if q.1 = k then (k, v) else q).find? fun q => q.1 = k) = some (k, v) := by
  induction l with
  | nil => exact absurd h (by simp)
  | cons a t ih =>
    by_cases ha : a.1 = k
    · simp [List.find?, ha]
    · have ht : t.any (fun q => q.1 = k) = true := by
        rcases List.any_eq_true.mp h with ⟨x, hx, hxk⟩
        cases hx with
        | head => exact absurd (of_decide_eq_true hxk) ha
        | tail _ hmem => exact List.any_eq_true.mpr ⟨x, hmem, hxk⟩
      simp [List.find?, ha, ih ht]

theorem findSnd_append (l : List (String × String)) (k v : String)
    (h : l.any (fun q => q.1 = k) = false) :
    ((l ++ [(k, v)]).find? fun q => q.1 = k) = some (k, v) := by
  induction l with
  | nil => simp [List.find?]
  | cons a t ih =>
    rw [List.any_cons, Bool.or_eq_false_iff] at h
    have ha : ¬(a.1 = k) := by
      intro hc
      rw [hc] at h
      simp at h
    simp [List.find?, ha, ih h.2]

theorem urlGet_urlSet (u : UrlModel) (k v : String) :
    urlGet (urlSet u k v) k = some v := by
  unfold urlGet urlSet
  split
  · rename_i h
    dsimp only
    rw [findSnd_map_set u.params k v h]
    rfl
  · rename_i h
    dsimp only
    rw [findSnd_append u.params k v (Bool.not_eq_true _ |>.mp h)]
    rfl

theorem findNextPageUrl_ne_none (hits : List SelHit) (u : UrlModel) (cp : ℤ) :
    findNextPageUrl hits u cp ≠ none := by
  unfold findNextPageUrl
  cases findNextPageUrlGo u hits <;> simp

theorem processListPage_pages (cd : Bool) (mr mp : ℕ) (u : UrlModel) (st : CrawlState)
    (pn : ℕ) (page : ListPage) :
    ((processListPage cd mr mp u st pn page).1).pagesProcessed
      = max st.pagesProcessed (if pn = 0 then 1 else pn) := by
  generalize hz : (if pn = 0 then 1 else pn) = pz
  cases cd <;>
    · simp only [processListPage, listPageCounter, hz, Bool.false_eq_true, if_false, if_true]
      split
      · rfl
      · split
        · cases findNextPageUrl page.nav u _ <;> rfl
        · rfl

theorem processListPage_stop_iff (cd : Bool) (mr mp : ℕ) (u : UrlModel) (st : CrawlState)
    (pn : ℕ) (page : ListPage) :
    ((processListPage cd mr mp u st pn page).2 = none ↔
      mr ≤ listPageCounter cd (processListPage cd mr mp u st pn page).1 ∨
        mp ≤ ((processListPage cd mr mp u st pn page).1).pagesProcessed) := by
  cases cd <;>
    · simp only [processListPage, listPageCounter, Bool.false_eq_true, if_false, if_true]
      generalize (if pn = 0 then 1 else pn) = pz
      split
      · rename_i h1
        exact iff_of_true rfl (Or.inl h1)
      · rename_i h1
        split
        · rename_i h2
          cases hf : findNextPageUrl page.nav u _ with
          | none => exact absurd hf (findNextPageUrl_ne_none _ _ _)
          | some s =>
            refine iff_of_false (fun hc => Option.noConfusion hc) ?_
            intro hor
            rcases hor with h | h
            · exact absurd h2.1 (not_lt.mpr h)
            · exact absurd h2.2 (not_lt.mpr h)
        · rename_i h2
          rcases not_and_or.mp h2 with h | h
          · exact iff_of_true rfl (Or.inl (not_lt.mp h))
          · exact iff_of_true rfl (Or.inr (not_lt.mp h))

theorem processListPage_incr (cd : Bool) (mr mp : ℕ) (u : UrlModel) (st : CrawlState)
    (pn : ℕ) (page : ListPage) (h1 : 1 ≤ pn) :
    ∀ q, (processListPage cd mr mp u st pn page).2 = some q → q.2 = pn + 1 := by
  cases cd <;>
    · simp only [processListPage, listPageCounter, Bool.false_eq_true, if_false, if_true]
      generalize (if pn = 0 then 1 else pn) = pz
      split
      · exact fun q hq => Option.noConfusion hq
      · split
        · rw [if_pos (show pn ≠ 0 by omega)]
          cases hf : findNextPageUrl page.nav u _ with
          | none => exact fun q hq => Option.noConfusion hq
          | some s =>
            intro q hq
            have hq2 : some (s, pn + 1) = some q := hq
            rw [Option.some_inj] at hq2
            rw [← hq2]
        · exact fun q hq => Option.noConfusion hq

theorem runListGo_fin (cd : Bool) (mr mp : ℕ) (site : ℕ → ListPage) (urlOf : ℕ → UrlModel) :
    ∀ (fuel : ℕ) (st : CrawlState) (pn : ℕ), 1 ≤ pn → mp - pn < fuel →
      (runListGo cd mr mp site urlOf fuel st pn).2.2 = true ∧
      (runListGo cd mr mp site urlOf fuel st pn).2.1 ≤ mp - pn + 1 := by
  intro fuel
  induction fuel with
  | zero => exact fun st pn h1 h2 => absurd h2 (by omega)
  | succ f ih =>
    intro st pn h1 h2
    unfold runListGo
    dsimp only
    cases hq : (processListPage cd mr mp (urlOf pn) st pn (site pn)).2 with
    | none =>
      refine ⟨rfl, ?_⟩
      show (1 : ℕ) ≤ mp - pn + 1
      omega
    | some q =>
      obtain ⟨s, m⟩ := q
      have hqn := processListPage_incr cd mr mp (urlOf pn) st pn (site pn) h1 _ hq
      dsimp only at hqn
      subst hqn
      have hlt : pn < mp := by
        have hnn : ¬((processListPage cd mr mp (urlOf pn) st pn (site pn)).2 = none) := by
          rw [hq]
          exact fun hc => Option.noConfusion hc
        have hor := fun hor =>
          hnn ((processListPage_stop_iff cd mr mp (urlOf pn) st pn (site pn)).mpr hor)
        have h3 : ¬(mp ≤ ((processListPage cd mr mp (urlOf pn) st pn (site pn)).1).pagesProcessed) :=
          fun hc => hor (Or.inr hc)
        rw [processListPage_pages] at h3
        rw [if_neg (show ¬pn = 0 by omega)] at h3
        have h4 := le_max_right st.pagesProcessed pn
        omega
      have hrec := ih (processListPage cd mr mp (urlOf pn) st pn (site pn)).1 (pn + 1)
        (by omega) (by omega)
      refine ⟨hrec.1, ?_⟩
      show (runListGo cd mr mp site urlOf f
          (processListPage cd mr mp (urlOf pn) st pn (site pn)).1 (pn + 1)).2.1 + 1
        ≤ mp - pn + 1
      have h5 := hrec.2
      omega

/-- C3 counterexample: with `maxPages = 3` and every fetched page
yielding zero listing cards, the run still processes 3 pages — a
zero-card page does not stop pagination. -/
theorem C3_counterexample :
    ({} : ListPage).cards = [] ∧
    (runList true 10 3 (fun _ => ({} : ListPage)) (fun _ => ({} : UrlModel))).2.1 = 3 ∧
    (runList true 10 3 (fun _ => ({} : ListPage)) (fun _ => ({} : UrlModel))).2.1 ≠ 1 := by
  refine ⟨rfl, by decide, by decide⟩

/-- C3 (amended): the next-page resolver never signals natural
end-of-results (it always returns a URL, and its fallback bumps the
`page` parameter by exactly 1); a queued next LIST request carries page
number exactly one higher; pagination stops exactly when the result
quota or the `maxPages` ceiling is reached — a page with zero listing
cards does not stop it — and a run started at page 1 ends by itself
after at most `maxPages` pages. -/
theorem C3_pagination_amended :
    (∀ (hits : List SelHit) (u : UrlModel) (cp : ℤ),
      (findNextPageUrl hits u cp).isSome = true) ∧
    (∀ (u : UrlModel) (cp : ℤ),
      urlGet (nextPageFallback u cp) "page"
        = some (jsNumToString
            (((match parseIntOpt (urlGet u "page") with
               | some p => p
               | none => if cp = 0 then 1 else cp) + 1 : ℤ) : ℚ))) ∧
    (∀ (cd : Bool) (mr mp : ℕ) (u : UrlModel) (st : CrawlState) (pn : ℕ) (page : ListPage),
      ((processListPage cd mr mp u st pn page).2 = none ↔
        mr ≤ listPageCounter cd (processListPage cd mr mp u st pn page).1 ∨
          mp ≤ ((processListPage cd mr mp u st pn page).1).pagesProcessed)) ∧
    (∀ (cd : Bool) (mr mp : ℕ) (u : UrlModel) (st : CrawlState) (pn : ℕ) (page : ListPage)
        (q : String × ℕ), 1 ≤ pn →
      (processListPage cd mr mp u st pn page).2 = some q → q.2 = pn + 1) ∧
    (∀ (cd : Bool) (mr mp : ℕ) (site : ℕ → ListPage) (urlOf : ℕ → UrlModel), 1 ≤ mp →
      (runList cd mr mp site urlOf).2.2 = true ∧
        (runList cd mr mp site urlOf).2.1 ≤ mp) := by
  refine ⟨?_, ?_, processListPage_stop_iff, ?_, ?_⟩
  · intro hits u cp
    cases hf : findNextPageUrl hits u cp with
    | none => exact absurd hf (findNextPageUrl_ne_none hits u cp)
    | some s => rfl
  · intro u cp
    show urlGet (nextPageFallback u cp) "page" = _
    unfold nextPageFallback
    dsimp only
    rw [urlGet_urlSet]
    cases parseIntOpt (urlGet u "page") <;> rfl
  · exact fun cd mr mp u st pn page q h1 hq =>
      processListPage_incr cd mr mp u st pn page h1 q hq
  · intro cd mr mp site urlOf hmp
    have h := runListGo_fin cd mr mp site urlOf mp {} 1 le_rfl (by omega)
    refine ⟨h.1, ?_⟩
    show (runListGo cd mr mp site urlOf mp {} 1).2.1 ≤ mp
    have h2 := h.2
    omega

/-- C3 witness: the amended pagination facts at concrete inputs. -/
theorem C3_witness :
    (findNextPageUrl [] {} 0).isSome = true ∧
    (runList true 10 3 (fun _ => ({} : ListPage)) (fun _ => ({} : UrlModel))).2.2 = true ∧
    (processListPage true 10 0 {} {} 1 {}).2 = none :=
  ⟨C3_pagination_amended.1 [] {} 0,
   (C3_pagination_amended.2.2.2.2 true 10 3 (fun _ => ({} : ListPage))
      (fun _ => ({} : UrlModel)) (by decide)).1,
   (C3_pagination_amended.2.2.1 true 10 0 {} {} 1 {}).mpr (Or.inr (Nat.zero_le _))⟩


/-! ## C4: the shared dedup set -/

theorem nodup_append_single {l : List String} {u : String} (h : l.Nodup) (hm : u ∉ l) :
    (l ++ [u]).Nodup := by
  rw [List.nodup_append]
  exact ⟨h, List.nodup_singleton u, fun a ha hb => by
    rcases List.mem_singleton.mp hb with rfl
    exact hm ha⟩

theorem queueDetails_prefix (mr : ℕ) :
    ∀ (props : List Property) (queued : ℕ) (qd : List String), ∃ k,
      (queueDetails mr queued qd props).2
        = qd ++ (props.take k).map (fun pr => pr.url.getD "") := by
  intro props
  induction props with
  | nil => exact fun queued qd => ⟨0, by simp [queueDetails]⟩
  | cons pr rest ih =>
    intro queued qd
    by_cases h : mr ≤ queued
    · exact ⟨0, by simp [queueDetails, h]⟩
    · obtain ⟨k, hk⟩ := ih (queued + 1) (qd ++ [pr.url.getD ""])
      refine ⟨k + 1, ?_⟩
      rw [show (queueDetails mr queued qd (pr :: rest)).2
          = (queueDetails mr (queued + 1) (qd ++ [pr.url.getD ""]) rest).2 from by
            simp [queueDetails, h]]
      rw [hk]
      simp

theorem collectCards_delta (remaining : ℕ) :
    ∀ (cards : List (Option Property)) (urls : List String) (acc : List Property),
      ∃ newPs : List Property,
        (collectCards remaining urls acc cards).2 = acc ++ newPs ∧
        (collectCards remaining urls acc cards).1
          = urls ++ newPs.map (fun pr => pr.url.getD "") ∧
        ∀ pr ∈ newPs, pr.url.getD "" ∉ urls := by
  intro cards
  induction cards with
  | nil => exact fun urls acc => ⟨[], by simp [collectCards]⟩
  | cons card rest ih =>
    intro urls acc
    by_cases hrem : remaining ≤ acc.length
    · exact ⟨[], by simp [collectCards, hrem]⟩
    · cases card with
      | none =>
        rw [show collectCards remaining urls acc (none :: rest)
            = collectCards remaining urls acc rest from by simp [collectCards, hrem]]
        exact ih urls acc
      | some pr =>
        cases hu : pr.url with
        | none =>
          rw [show collectCards remaining urls acc (some pr :: rest)
              = collectCards remaining urls acc rest from by simp [collectCards, hrem, hu]]
          exact ih urls acc
        | some u =>
          by_cases hu0 : u = ""
          · rw [show collectCards remaining urls acc (some pr :: rest)
                = collectCards remaining urls acc rest from by
                  simp [collectCards, hrem, hu, hu0]]
            exact ih urls acc
          · by_cases hmem : u ∈ urls
            · rw [show collectCards remaining urls acc (some pr :: rest)
                  = collectCards remaining urls acc rest from by
                    simp [collectCards, hrem, hu, hu0, hmem]]
              exact ih urls acc
            · rw [show collectCards remaining urls acc (some pr :: rest)
                  = collectCards remaining (urls ++ [u]) (acc ++ [pr]) rest from by
                    simp [collectCards, hrem, hu, hu0, hmem]]
              obtain ⟨nps, h1, h2, h3⟩ := ih (urls ++ [u]) (acc ++ [pr])
              have hpru : pr.url.getD "" = u := by rw [hu]; rfl
              refine ⟨pr :: nps, ?_, ?_, ?_⟩
              · rw [h1]
                simp
              · rw [h2, List.map_cons, hpru]
                simp
              · intro pr' hpr'
                rcases List.mem_cons.mp hpr' with rfl | hpr'
                · rw [hpru]
                  exact hmem
                · intro hc
                  exact h3 pr' hpr' (List.mem_append_left _ hc)

theorem collectCards_nodup (remaining : ℕ) :
    ∀ (cards : List (Option Property)) (urls : List String) (acc : List Property),
      urls.Nodup → (collectCards remaining urls acc cards).1.Nodup := by
  intro cards
  induction cards with
  | nil => exact fun urls acc h => h
  | cons card rest ih =>
    intro urls acc h
    by_cases hrem : remaining ≤ acc.length
    · rw [show (collectCards remaining urls acc (card :: rest)).1 = urls from by
        simp [collectCards, hrem]]
      exact h
    · cases card with
      | none =>
        rw [show collectCards remaining urls acc (none :: rest)
            = collectCards remaining urls acc rest from by simp [collectCards, hrem]]
        exact ih urls acc h
      | some pr =>
        cases hu : pr.url with
        | none =>
          rw [show collectCards remaining urls acc (some pr :: rest)
              = collectCards remaining urls acc rest from by simp [collectCards, hrem, hu]]
          exact ih urls acc h
        | some u =>
          by_cases hu0 : u = ""
          · rw [show collectCards remaining urls acc (some pr :: rest)
                = collectCards remaining urls acc rest from by
                  simp [collectCards, hrem, hu, hu0]]
            exact ih urls acc h
          · by_cases hmem : u ∈ urls
            · rw [show collectCards remaining urls acc (some pr :: rest)
                  = collectCards remaining urls acc rest from by
                    simp [collectCards, hrem, hu, hu0, hmem]]
              exact ih urls acc h
            · rw [show collectCards remaining urls acc (some pr :: rest)
                  = collectCards remaining (urls ++ [u]) (acc ++ [pr]) rest from by
                    simp [collectCards, hrem, hu, hu0, hmem]]
              exact ih (urls ++ [u]) (acc ++ [pr]) (nodup_append_single h hmem)


theorem processListPage_inv (cd : Bool) (mr mp : ℕ) (u : UrlModel) (st : CrawlState)
    (pn : ℕ) (page : ListPage)
    (h1 : st.propertyUrls.Nodup) (h2 : st.queuedDetails.Nodup)
    (h3 : ∀ x ∈ st.queuedDetails, x ∈ st.propertyUrls) :
    ((processListPage cd mr mp u st pn page).1).propertyUrls.Nodup ∧
    ((processListPage cd mr mp u st pn page).1).queuedDetails.Nodup ∧
    ∀ x ∈ ((processListPage cd mr mp u st pn page).1).queuedDetails,
      x ∈ ((processListPage cd mr mp u st pn page).1).propertyUrls := by
  cases cd
  case false =>
    simp only [processListPage, listPageCounter, Bool.false_eq_true, if_false, if_true]
    generalize (if pn = 0 then 1 else pn) = pz
    split
    · exact ⟨h1, h2, h3⟩
    · have hnd := collectCards_nodup (mr - st.propertiesStored) page.cards st.propertyUrls [] h1
      obtain ⟨nps, hd1, hd2, hd3⟩ :=
        collectCards_delta (mr - st.propertiesStored) page.cards st.propertyUrls []
      have hC : ∀ x ∈ st.queuedDetails,
          x ∈ (collectCards (mr - st.propertiesStored) st.propertyUrls [] page.cards).1 := by
        intro x hx
        rw [hd2]
        exact List.mem_append_left _ (h3 x hx)
      split
      · cases findNextPageUrl page.nav u _ <;> exact ⟨hnd, h2, hC⟩
      · exact ⟨hnd, h2, hC⟩
  case true =>
    simp only [processListPage, listPageCounter, Bool.false_eq_true, if_false, if_true]
    generalize (if pn = 0 then 1 else pn) = pz
    split
    · exact ⟨h1, h2, h3⟩
    · have hnd := collectCards_nodup (mr - st.propertiesQueued) page.cards st.propertyUrls [] h1
      obtain ⟨nps, hd1, hd2, hd3⟩ :=
        collectCards_delta (mr - st.propertiesQueued) page.cards st.propertyUrls []
      obtain ⟨k, hk⟩ := queueDetails_prefix mr
        (collectCards (mr - st.propertiesQueued) st.propertyUrls [] page.cards).2
        st.propertiesQueued st.queuedDetails
      have hccn : (st.propertyUrls ++ nps.map (fun pr => pr.url.getD "")).Nodup := by
        rw [← hd2]
        exact hnd
      have hsplit := List.nodup_append.mp hccn
      have hnil : (collectCards (mr - st.propertiesQueued) st.propertyUrls [] page.cards).2
          = nps := by
        rw [hd1]
        rfl
      have htake : ((collectCards (mr - st.propertiesQueued) st.propertyUrls [] page.cards).2.take
            k).map (fun pr => pr.url.getD "")
          = (nps.map (fun pr => pr.url.getD "")).take k := by
        rw [hnil, List.map_take]
      have hB : (queueDetails mr st.propertiesQueued st.queuedDetails
          (collectCards (mr - st.propertiesQueued) st.propertyUrls [] page.cards).2).2.Nodup := by
        rw [hk, htake]
        rw [List.nodup_append]
        refine ⟨h2, (hsplit.2.1).sublist (List.take_sublist _ _), ?_⟩
        intro a ha hb
        exact hsplit.2.2 (h3 a ha) (List.mem_of_mem_take hb)
      have hC : ∀ x ∈ (queueDetails mr st.propertiesQueued st.queuedDetails
            (collectCards (mr - st.propertiesQueued) st.propertyUrls [] page.cards).2).2,
          x ∈ (collectCards (mr - st.propertiesQueued) st.propertyUrls [] page.cards).1 := by
        intro x hx
        rw [hk, htake] at hx
        rw [hd2]
        rcases List.mem_append.mp hx with hx | hx
        · exact List.mem_append_left _ (h3 x hx)
        · exact List.mem_append_right _ (List.mem_of_mem_take hx)
      split
      · cases findNextPageUrl page.nav u _ <;> exact ⟨hnd, hB, hC⟩
      · exact ⟨hnd, hB, hC⟩

theorem runListGo_inv (cd : Bool) (mr mp : ℕ) (site : ℕ → ListPage) (urlOf : ℕ → UrlModel) :
    ∀ (fuel : ℕ) (st : CrawlState) (pn : ℕ),
      st.propertyUrls.Nodup → st.queuedDetails.Nodup →
      (∀ x ∈ st.queuedDetails, x ∈ st.propertyUrls) →
      ((runListGo cd mr mp site urlOf fuel st pn).1.propertyUrls.Nodup ∧
        (runListGo cd mr mp site urlOf fuel st pn).1.queuedDetails.Nodup ∧
        ∀ x ∈ (runListGo cd mr mp site urlOf fuel st pn).1.queuedDetails,
          x ∈ (runListGo cd mr mp site urlOf fuel st pn).1.propertyUrls) := by
  intro fuel
  induction fuel with
  | zero => exact fun st pn ha hb hc => ⟨ha, hb, hc⟩
  | succ f ih =>
    intro st pn ha hb hc
    have hp := processListPage_inv cd mr mp (urlOf pn) st pn (site pn) ha hb hc
    unfold runListGo
    dsimp only
    cases hq : (processListPage cd mr mp (urlOf pn) st pn (site pn)).2 with
    | none => exact hp
    | some q => exact ih _ _ hp.1 hp.2.1 hp.2.2

/-- C4: across a whole run, no listing URL is ever enqueued for a
detail fetch more than once (the list of enqueued detail URLs has no
duplicates and every one was recorded in the shared dedup set), and the
OUTPUT's `uniqueProperties` is exactly the size of the dedup set. -/
theorem C4_dedup_invariant :
    ∀ (cd : Bool) (mr mp : ℕ) (site : ℕ → ListPage) (urlOf : ℕ → UrlModel),
      (runList cd mr mp site urlOf).1.queuedDetails.Nodup ∧
      (∀ x ∈ (runList cd mr mp site urlOf).1.queuedDetails,
        x ∈ (runList cd mr mp site urlOf).1.propertyUrls) ∧
      (runList cd mr mp site urlOf).1.propertyUrls.Nodup ∧
      outputUnique (runList cd mr mp site urlOf).1
        = ((runList cd mr mp site urlOf).1).propertyUrls.length := by
  intro cd mr mp site urlOf
  have h := runListGo_inv cd mr mp site urlOf mp {} 1 List.nodup_nil List.nodup_nil
    (fun x hx => absurd hx (List.not_mem_nil x))
  exact ⟨h.2.1, h.2.2, h.1, rfl⟩

/-- C4 witness: the dedup facts at a concrete one-card site. -/
theorem C4_witness :
    "https://www.rightmove.co.uk/properties/1" ∈
      (runList true 10 2
        (fun n => if n = 1 then
          { cards := [some { url := some "https://www.rightmove.co.uk/properties/1" }] }
          else {})
        (fun _ => {})).1.queuedDetails ∧
    "https://www.rightmove.co.uk/properties/1" ∈
      (runList true 10 2
        (fun n => if n = 1 then
          { cards := [some { url := some "https://www.rightmove.co.uk/properties/1" }] }
          else {})
        (fun _ => {})).1.propertyUrls :=
  ⟨by decide,
   (C4_dedup_invariant true 10 2
      (fun n => if n = 1 then
        { cards := [some { url := some "https://www.rightmove.co.uk/properties/1" }] }
        else {})
      (fun _ => {})).2.1 "https://www.rightmove.co.uk/properties/1" (by decide)⟩


/-! ## C9 invariants and helper lemmas -/

theorem Reach.snoc {n : ℕ} {g : JGraph n} {r v c : Fin n} {d : ℕ}
    (h : Reach g r v d) (hc : some c ∈ g.children v) : Reach g r c (d + 1) := by
  induction h with
  | refl w => exact Reach.step hc (Reach.refl c)
  | step hc2 _ ih => exact Reach.step hc2 (ih hc)

theorem seenHas_eq_true {n : ℕ} {s : List (Fin n × ℕ)} {v : Fin n} :
    seenHas s v = true ↔ ∃ d, (v, d) ∈ s := by
  unfold seenHas
  rw [List.any_eq_true]
  constructor
  · rintro ⟨⟨a, b⟩, he, hev⟩
    have ha : a = v := of_decide_eq_true hev
    subst ha
    exact ⟨b, he⟩
  · rintro ⟨d, hd⟩
    exact ⟨(v, d), hd, by simp⟩

theorem seenHas_cons_ne {n : ℕ} {s : List (Fin n × ℕ)} {v w : Fin n} {d : ℕ}
    (hne : w ≠ v) : seenHas ((v, d) :: s) w = seenHas s w := by
  unfold seenHas
  rw [List.any_cons]
  have : (decide ((v, d).1 = w)) = false := by
    simp
    exact fun hc => hne hc.symm
  rw [this, Bool.false_or]







theorem dorder_pop {n : ℕ} {e : Option (Fin n) × ℕ} {rest : List (Option (Fin n) × ℕ)}
    (h : DOrder (e :: rest)) : DOrder rest := by
  obtain ⟨hs, hw⟩ := h
  rw [List.map_cons, List.sorted_cons] at hs
  refine ⟨hs.2, ?_⟩
  intro e0 he0 e2 he2
  have h1 : e.2 ≤ e0.2 :=
    hs.1 e0.2 (List.mem_map_of_mem _ (List.mem_of_mem_head? he0))
  have h2 : e2.2 ≤ e.2 + 1 := hw e rfl e2 (List.mem_cons_of_mem _ he2)
  omega

theorem dorder_head_le {n : ℕ} {e e2 : Option (Fin n) × ℕ}
    {rest : List (Option (Fin n) × ℕ)} (h : DOrder (e :: rest)) (h2 : e2 ∈ e :: rest) :
    e.2 ≤ e2.2 := by
  obtain ⟨hs, _⟩ := h
  rw [List.map_cons, List.sorted_cons] at hs
  rcases List.mem_cons.mp h2 with rfl | h2
  · exact le_rfl
  · exact hs.1 e2.2 (List.mem_map_of_mem _ h2)

theorem sorted_map_const {α : Type} (l : List α) (x : ℕ) :
    (l.map fun _ => x).Sorted (· ≤ ·) := by
  induction l with
  | nil => exact List.sorted_nil
  | cons a t ih =>
    rw [List.map_cons, List.sorted_cons]
    refine ⟨?_, ih⟩
    intro b hb
    rcases List.mem_map.mp hb with ⟨c, _, rfl⟩
    exact le_rfl

theorem dorder_expand {n : ℕ} {e : Option (Fin n) × ℕ} {rest l2 : List (Option (Fin n) × ℕ)}
    (h : DOrder (e :: rest)) (hl2 : ∀ e2 ∈ l2, e2.2 = e.2 + 1) :
    DOrder (rest ++ l2) := by
  obtain ⟨hs, hw⟩ := h
  rw [List.map_cons, List.sorted_cons] at hs
  constructor
  · rw [List.map_append]
    unfold List.Sorted
    rw [List.pairwise_append]
    refine ⟨hs.2, ?_, ?_⟩
    · have : l2.map Prod.snd = l2.map fun _ => e.2 + 1 := by
        apply List.map_congr_left
        exact fun e2 he2 => hl2 e2 he2
      rw [this]
      exact sorted_map_const l2 (e.2 + 1)
    · intro a ha b hb
      rcases List.mem_map.mp ha with ⟨ea, hea, rfl⟩
      rcases List.mem_map.mp hb with ⟨eb, heb, rfl⟩
      rw [hl2 eb heb]
      exact hw e rfl ea (List.mem_cons_of_mem _ hea)
  · intro e0 he0 e2 he2
    have he0m : e0 ∈ rest ++ l2 := List.mem_of_mem_head? he0
    have h1 : e.2 ≤ e0.2 := by
      rcases List.mem_append.mp he0m with h3 | h3
      · exact hs.1 e0.2 (List.mem_map_of_mem _ h3)
      · rw [hl2 e0 h3]
        omega
    have h2 : e2.2 ≤ e.2 + 1 := by
      rcases List.mem_append.mp he2 with h3 | h3
      · exact hw e rfl e2 (List.mem_cons_of_mem _ h3)
      · rw [hl2 e2 h3]
    omega

theorem bfsPotential_insert {n : ℕ} (g : JGraph n) (seen : List (Fin n × ℕ)) (v : Fin n)
    (d : ℕ) (h : seenHas seen v = false) :
    bfsPotential g seen = bfsPotential g ((v, d) :: seen) + (1 + (g.children v).length) := by
  unfold bfsPotential
  rw [← Finset.sum_erase_add _ _ (Finset.mem_univ v),
    ← Finset.sum_erase_add _ _ (Finset.mem_univ v)]
  have h1 : (if seenHas seen v then 0 else 1 + (g.children v).length)
      = 1 + (g.children v).length := by
    rw [h]
    rfl
  have h2 : (if seenHas ((v, d) :: seen) v then 0 else 1 + (g.children v).length) = 0 := by
    rw [show seenHas ((v, d) :: seen) v = true from by simp [seenHas]]
    rfl
  have h3 : ∀ u ∈ Finset.univ.erase v,
      (if seenHas ((v, d) :: seen) u then 0 else 1 + (g.children u).length)
        = (if seenHas seen u then 0 else 1 + (g.children u).length) := by
    intro u hu
    rw [seenHas_cons_ne (Finset.ne_of_mem_erase hu)]
  rw [h1, h2, Finset.sum_congr rfl h3]
  omega

theorem seenCover {n : ℕ} {g : JGraph n} {maxD : ℕ} {q : List (Option (Fin n) × ℕ)}
    {seen : List (Fin n × ℕ)} (hLe : SeenLe q seen) (hExp : SeenExp g maxD q seen) :
    ∀ (j : ℕ) (v : Fin n) (dv : ℕ) (u : Fin n), (v, dv) ∈ seen → Reach g v u j →
      dv + j ≤ maxD →
      (∃ k2, k2 ≤ dv + j ∧ (u, k2) ∈ seen) ∨
      (∃ w dq j2, (some w, dq) ∈ q ∧ seenHas seen w = false ∧ Reach g w u j2 ∧
        dq + j2 ≤ dv + j) := by
  intro j
  induction j with
  | zero =>
    intro v dv u hv hr hb
    cases hr
    exact Or.inl ⟨dv, le_rfl, hv⟩
  | succ j ih =>
    intro v dv u hv hr hb
    cases hr with
    | @step _ c _ _ hc hr2 =>
      have hdvlt : dv < maxD := by omega
      rcases hExp (v, dv) hv hdvlt c hc with ⟨dc, hdc, hcs⟩ | ⟨dc, hdc, hcq⟩
      · rcases ih c dc u hcs hr2 (by omega) with ⟨k2, hk2, hks⟩ | ⟨w, dq, j2, h1, h2, h3, h4⟩
        · exact Or.inl ⟨k2, by omega, hks⟩
        · exact Or.inr ⟨w, dq, j2, h1, h2, h3, by omega⟩
      · by_cases hcs2 : seenHas seen c = true
        · rcases seenHas_eq_true.mp hcs2 with ⟨dcs, hdcs⟩
          have hdcs_le : dcs ≤ dc := hLe (c, dcs) hdcs (some c, dc) hcq
          rcases ih c dcs u hdcs hr2 (by omega) with ⟨k2, hk2, hks⟩ | ⟨w, dq, j2, h1, h2, h3, h4⟩
          · exact Or.inl ⟨k2, by omega, hks⟩
          · exact Or.inr ⟨w, dq, j2, h1, h2, h3, by omega⟩
        · have hcf : seenHas seen c = false := by
            cases h2 : seenHas seen c
            · rfl
            · exact absurd h2 hcs2
          exact Or.inr ⟨c, dc, j, hcq, hcf, hr2, by omega⟩

theorem cover_nil_complete {n : ℕ} {g : JGraph n} {pred : Fin n → Bool} {r : Fin n}
    {maxD : ℕ} {seen : List (Fin n × ℕ)} (hS : SeenOK g pred r maxD seen)
    (hC : Cover g r maxD [] seen) :
    ∀ u k, k ≤ maxD → Reach g r u k → pred u = false := by
  intro u k hk hr
  rcases hC u k hk hr with ⟨k2, _, hks⟩ | ⟨w, dq, j, hwq, _, _, _⟩
  · exact (hS _ hks).2.1
  · exact absurd hwq (List.not_mem_nil _)

theorem bfsGo_spec {n : ℕ} (g : JGraph n) (pred : Fin n → Bool) (maxD : ℕ) (r : Fin n) :
    ∀ (fuel : ℕ) (q : List (Option (Fin n) × ℕ)) (seen : List (Fin n × ℕ)),
      bfsMeasure g q seen ≤ fuel →
      QueueOK g r maxD q → SeenOK g pred r maxD seen → SeenLe q seen →
      DOrder q → SeenExp g maxD q seen → Cover g r maxD q seen →
      ((∀ v, bfsGo g pred maxD fuel q seen = some v →
          pred v = true ∧ ∃ d, Reach g r v d ∧ d ≤ maxD ∧
            ∀ u k, k < d → k ≤ maxD → Reach g r u k → pred u = false) ∧
        (bfsGo g pred maxD fuel q seen = none →
          ∀ u k, k ≤ maxD → Reach g r u k → pred u = false)) := by
  intro fuel
  induction fuel with
  | zero =>
    intro q seen hμ hQ hS hLe hD hE hC
    have hq : q = [] := by
      unfold bfsMeasure at hμ
      cases q with
      | nil => rfl
      | cons e t =>
        rw [List.length_cons] at hμ
        omega
    subst hq
    exact ⟨fun v hv => Option.noConfusion hv, fun _ => cover_nil_complete hS hC⟩
  | succ fuel ih =>
    intro q seen hμ hQ hS hLe hD hE hC
    cases q with
    | nil =>
      exact ⟨fun v hv => Option.noConfusion hv, fun _ => cover_nil_complete hS hC⟩
    | cons e rest =>
      obtain ⟨eo, ed⟩ := e
      have hμr : bfsMeasure g rest seen ≤ fuel := by
        unfold bfsMeasure at hμ ⊢
        rw [List.length_cons] at hμ
        omega
      cases eo with
      | none =>
        have hres : bfsGo g pred maxD (fuel + 1) ((none, ed) :: rest) seen
            = bfsGo g pred maxD fuel rest seen := rfl
        rw [hres]
        refine ih rest seen hμr
          (fun e2 he2 => hQ e2 (List.mem_cons_of_mem _ he2)) hS
          (fun es hes e2 he2 => hLe es hes e2 (List.mem_cons_of_mem _ he2))
          (dorder_pop hD) ?_ ?_
        · intro es hes hlt c hc
          rcases hE es hes hlt c hc with h | ⟨dc, hdc, hcq⟩
          · exact Or.inl h
          · rcases List.mem_cons.mp hcq with hhd | htl
            · exact absurd hhd (by simp)
            · exact Or.inr ⟨dc, hdc, htl⟩
        · intro u k hk hr2
          rcases hC u k hk hr2 with h | ⟨w, dq, j, hwq, hws, hwr, hwb⟩
          · exact Or.inl h
          · rcases List.mem_cons.mp hwq with hhd | htl
            · exact absurd hhd (by simp)
            · exact Or.inr ⟨w, dq, j, htl, hws, hwr, hwb⟩
      | some v =>
        by_cases hseen : seenHas seen v = true
        · -- already seen: drop the entry
          have hres : bfsGo g pred maxD (fuel + 1) ((some v, ed) :: rest) seen
              = bfsGo g pred maxD fuel rest seen := by
            simp [bfsGo, hseen]
          obtain ⟨dvs, hdvs⟩ := seenHas_eq_true.mp hseen
          rw [hres]
          refine ih rest seen hμr
            (fun e2 he2 => hQ e2 (List.mem_cons_of_mem _ he2)) hS
            (fun es hes e2 he2 => hLe es hes e2 (List.mem_cons_of_mem _ he2))
            (dorder_pop hD) ?_ ?_
          · intro es hes hlt c hc
            rcases hE es hes hlt c hc with h | ⟨dc, hdc, hcq⟩
            · exact Or.inl h
            · rcases List.mem_cons.mp hcq with hhd | htl
              · have hcv : c = v := by
                  have := congrArg Prod.fst hhd
                  simpa using this
                have hdce : dc = ed := congrArg Prod.snd hhd
                subst hcv
                have hle : dvs ≤ ed :=
                  hLe (c, dvs) hdvs (some c, ed) (List.mem_cons_self _ _)
                exact Or.inl ⟨dvs, by omega, hdvs⟩
              · exact Or.inr ⟨dc, hdc, htl⟩
          · intro u k hk hr2
            rcases hC u k hk hr2 with h | ⟨w, dq, j, hwq, hws, hwr, hwb⟩
            · exact Or.inl h
            · rcases List.mem_cons.mp hwq with hhd | htl
              · have hwv : w = v := by
                  have := congrArg Prod.fst hhd
                  simpa using this
                rw [hwv] at hws
                exact absurd hseen (by rw [hws]; exact fun hc => Bool.noConfusion hc)
              · exact Or.inr ⟨w, dq, j, htl, hws, hwr, hwb⟩
        · have hsf : seenHas seen v = false := by
            cases h2 : seenHas seen v
            · rfl
            · exact absurd h2 hseen
          have hhead := hQ (some v, ed) (List.mem_cons_self _ _) v rfl
          by_cases hpred : pred v = true
          · -- found
            have hres : bfsGo g pred maxD (fuel + 1) ((some v, ed) :: rest) seen
                = some v := by
              simp [bfsGo, hsf, hpred]
            rw [hres]
            refine ⟨fun v2 hv2 => ?_, fun hnone => Option.noConfusion hnone⟩
            rw [Option.some_inj] at hv2
            subst hv2
            refine ⟨hpred, ed, hhead.1, hhead.2, ?_⟩
            intro u k hk hkm hr2
            rcases hC u k hkm hr2 with ⟨k2, _, hks⟩ | ⟨w, dq, j, hwq, hws, hwr, hwb⟩
            · exact (hS _ hks).2.1
            · have hdq : ed ≤ dq := dorder_head_le hD hwq
              omega
          · have hpf : pred v = false := by
              cases h2 : pred v
              · rfl
              · exact absurd h2 hpred
            have hS' : SeenOK g pred r maxD ((v, ed) :: seen) := by
              intro e2 he2
              rcases List.mem_cons.mp he2 with rfl | he2
              · exact ⟨hhead.1, hpf, hhead.2⟩
              · exact hS e2 he2
            by_cases hdepth : maxD ≤ ed
            · -- depth exhausted: mark seen, no expansion
              have hres : bfsGo g pred maxD (fuel + 1) ((some v, ed) :: rest) seen
                  = bfsGo g pred maxD fuel rest ((v, ed) :: seen) := by
                simp [bfsGo, hsf, hpf, hdepth]
              have hμ' : bfsMeasure g rest ((v, ed) :: seen) ≤ fuel := by
                unfold bfsMeasure at hμ ⊢
                rw [List.length_cons] at hμ
                have := bfsPotential_insert g seen v ed hsf
                omega
              have hLe' : SeenLe rest ((v, ed) :: seen) := by
                intro es hes e2 he2
                rcases List.mem_cons.mp hes with rfl | hes
                · exact dorder_head_le hD (List.mem_cons_of_mem _ he2)
                · exact hLe es hes e2 (List.mem_cons_of_mem _ he2)
              have hE' : SeenExp g maxD rest ((v, ed) :: seen) := by
                intro es hes hlt c hc
                rcases List.mem_cons.mp hes with rfl | hes
                · omega
                · rcases hE es hes hlt c hc with ⟨dc, hdc, hcs⟩ | ⟨dc, hdc, hcq⟩
                  · exact Or.inl ⟨dc, hdc, List.mem_cons_of_mem _ hcs⟩
                  · rcases List.mem_cons.mp hcq with hhd | htl
                    · have hcv : c = v := by
                        have := congrArg Prod.fst hhd
                        simpa using this
                      have hdce : dc = ed := congrArg Prod.snd hhd
                      subst hcv
                      exact Or.inl ⟨ed, by omega, List.mem_cons_self _ _⟩
                    · exact Or.inr ⟨dc, hdc, htl⟩
              have hC' : Cover g r maxD rest ((v, ed) :: seen) := by
                intro u k hk hr2
                rcases hC u k hk hr2 with ⟨k2, hk2, hks⟩ | ⟨w, dq, j, hwq, hws, hwr, hwb⟩
                · exact Or.inl ⟨k2, hk2, List.mem_cons_of_mem _ hks⟩
                · by_cases hwv : w = v
                  · subst hwv
                    cases hwr with
                    | refl =>
                      have hle : ed ≤ dq := dorder_head_le hD hwq
                      exact Or.inl ⟨ed, by omega, List.mem_cons_self _ _⟩
                    | @step _ c _ _ hc hr3 =>
                      have hle : ed ≤ dq := dorder_head_le hD hwq
                      omega
                  · have hws' : seenHas ((v, ed) :: seen) w = false := by
                      rw [seenHas_cons_ne hwv]
                      exact hws
                    rcases List.mem_cons.mp hwq with hhd | htl
                    · exact absurd (by
                        have := congrArg Prod.fst hhd
                        simpa using this) hwv
                    · exact Or.inr ⟨w, dq, j, htl, hws', hwr, hwb⟩
              rw [hres]
              exact ih rest ((v, ed) :: seen) hμ'
                (fun e2 he2 => hQ e2 (List.mem_cons_of_mem _ he2)) hS' hLe'
                (dorder_pop hD) hE' hC'
            · -- expand children
              have hdlt : ed < maxD := by omega
              have hres : bfsGo g pred maxD (fuel + 1) ((some v, ed) :: rest) seen
                  = bfsGo g pred maxD fuel
                      (rest ++ (g.children v).map fun c => (c, ed + 1))
                      ((v, ed) :: seen) := by
                simp [bfsGo, hsf, hpf, hdepth]
              have hpush : ∀ e2 ∈ (g.children v).map fun c => (c, ed + 1),
                  e2.2 = ed + 1 := by
                intro e2 he2
                rcases List.mem_map.mp he2 with ⟨c, _, rfl⟩
                rfl
              have hμ' : bfsMeasure g
                  (rest ++ (g.children v).map fun c => (c, ed + 1)) ((v, ed) :: seen)
                  ≤ fuel := by
                unfold bfsMeasure at hμ ⊢
                rw [List.length_cons] at hμ
                rw [List.length_append, List.length_map]
                have := bfsPotential_insert g seen v ed hsf
                omega
              have hQ' : QueueOK g r maxD
                  (rest ++ (g.children v).map fun c => (c, ed + 1)) := by
                intro e2 he2 w hew
                rcases List.mem_append.mp he2 with h3 | h3
                · exact hQ e2 (List.mem_cons_of_mem _ h3) w hew
                · rcases List.mem_map.mp h3 with ⟨c, hc, rfl⟩
                  have hcw : c = some w := hew
                  subst hcw
                  exact ⟨hhead.1.snoc hc, by omega⟩
              have hLe' : SeenLe (rest ++ (g.children v).map fun c => (c, ed + 1))
                  ((v, ed) :: seen) := by
                intro es hes e2 he2
                rcases List.mem_append.mp he2 with h3 | h3
                · rcases List.mem_cons.mp hes with rfl | hes
                  · exact dorder_head_le hD (List.mem_cons_of_mem _ h3)
                  · exact hLe es hes e2 (List.mem_cons_of_mem _ h3)
                · rw [hpush e2 h3]
                  rcases List.mem_cons.mp hes with rfl | hes
                  · omega
                  · have := hLe es hes (some v, ed) (List.mem_cons_self _ _)
                    omega
              have hD' := dorder_expand hD hpush
              have hE' : SeenExp g maxD
                  (rest ++ (g.children v).map fun c => (c, ed + 1))
                  ((v, ed) :: seen) := by
                intro es hes hlt c hc
                rcases List.mem_cons.mp hes with rfl | hes
                · refine Or.inr ⟨ed + 1, le_rfl, List.mem_append_right _ ?_⟩
                  exact List.mem_map.mpr ⟨some c, hc, rfl⟩
                · rcases hE es hes hlt c hc with ⟨dc, hdc, hcs⟩ | ⟨dc, hdc, hcq⟩
                  · exact Or.inl ⟨dc, hdc, List.mem_cons_of_mem _ hcs⟩
                  · rcases List.mem_cons.mp hcq with hhd | htl
                    · have hcv : c = v := by
                        have := congrArg Prod.fst hhd
                        simpa using this
                      have hdce : dc = ed := congrArg Prod.snd hhd
                      subst hcv
                      exact Or.inl ⟨ed, by omega, List.mem_cons_self _ _⟩
                    · exact Or.inr ⟨dc, hdc, List.mem_append_left _ htl⟩
              have hC' : Cover g r maxD
                  (rest ++ (g.children v).map fun c => (c, ed + 1))
                  ((v, ed) :: seen) := by
                intro u k hk hr2
                rcases hC u k hk hr2 with ⟨k2, hk2, hks⟩ | ⟨w, dq, j, hwq, hws, hwr, hwb⟩
                · exact Or.inl ⟨k2, hk2, List.mem_cons_of_mem _ hks⟩
                · by_cases hwv : w = v
                  · subst hwv
                    have hle : ed ≤ dq := dorder_head_le hD hwq
                    cases hwr with
                    | refl => exact Or.inl ⟨ed, by omega, List.mem_cons_self _ _⟩
                    | @step _ c _ _ hc hr3 =>
                      rename_i j2
                      by_cases hcseen : seenHas ((w, ed) :: seen) c = true
                      · obtain ⟨dcs, hdcs⟩ := seenHas_eq_true.mp hcseen
                        have hdcs_le : dcs ≤ ed := by
                          rcases List.mem_cons.mp hdcs with hhd | htl
                          · have := congrArg Prod.snd hhd
                            omega
                          · exact hLe (c, dcs) htl (some w, ed) (List.mem_cons_self _ _)
                        rcases seenCover hLe' hE' j2 c dcs u hdcs hr3 (by omega) with
                          ⟨k2, hk2, hks⟩ | ⟨w2, dq2, j3, h1, h2, h3, h4⟩
                        · exact Or.inl ⟨k2, by omega, hks⟩
                        · exact Or.inr ⟨w2, dq2, j3, h1, h2, h3, by omega⟩
                      · have hcf : seenHas ((w, ed) :: seen) c = false := by
                          cases h2 : seenHas ((w, ed) :: seen) c
                          · rfl
                          · exact absurd h2 hcseen
                        refine Or.inr ⟨c, ed + 1, j2, ?_, hcf, hr3, by omega⟩
                        exact List.mem_append_right _ (List.mem_map.mpr ⟨some c, hc, rfl⟩)
                  · have hws' : seenHas ((v, ed) :: seen) w = false := by
                      rw [seenHas_cons_ne hwv]
                      exact hws
                    rcases List.mem_cons.mp hwq with hhd | htl
                    · exact absurd (by
                        have := congrArg Prod.fst hhd
                        simpa using this) hwv
                    · exact Or.inr ⟨w, dq, j, List.mem_append_left _ htl, hws', hwr, hwb⟩
              rw [hres]
              exact ih _ _ hμ' hQ' hS' hLe' hD' hE' hC'

/-- C9: the structured-payload locator is a bounded, cycle-safe BFS:
on every object graph a found node satisfies the predicate, is
reachable within `maxDepth` (6 at the call site), and no
strictly-shallower node satisfies the predicate (shallower matches are
preferred and the search stops at the first find); the locator returns
null exactly when no node within the bound matches (and for a
null/primitive root); and `isLikelyPropertyPayload` holds exactly for a
non-array object exposing an address-like key and at least one
bedroom-, type- or price-like key. -/
theorem C9_findNestedObject_bfs (n : ℕ) (g : JGraph n) (pred : Fin n → Bool) (maxD : ℕ)
    (root : Option (Fin n)) :
    (∀ (r v : Fin n), root = some r → findNestedObject g pred maxD root = some v →
      pred v = true ∧ ∃ d, Reach g r v d ∧ d ≤ maxD ∧
        ∀ u k, k < d → k ≤ maxD → Reach g r u k → pred u = false) ∧
    (∀ r : Fin n, root = some r → findNestedObject g pred maxD root = none →
      ∀ u k, k ≤ maxD → Reach g r u k → pred u = false) ∧
    (∀ r : Fin n, root = some r →
      (∀ u k, k ≤ maxD → Reach g r u k → pred u = false) →
      findNestedObject g pred maxD root = none) ∧
    (root = none → findNestedObject g pred maxD root = none) ∧
    (∀ v : Fin n, isLikelyPropertyPayload g v = true ↔
      (g.isArr v = false ∧
        (∃ k ∈ ["displayAddress", "address", "propertyAddress", "addressSummary"],
          k ∈ g.keys v) ∧
        ((∃ k ∈ ["bedrooms", "bedroomCount", "numBedrooms"], k ∈ g.keys v) ∨
          (∃ k ∈ ["propertyType", "propertySubType", "propertyTypeFullDescription"],
            k ∈ g.keys v) ∨
          (∃ k ∈ ["price", "displayPrice", "priceAmount"], k ∈ g.keys v)))) := by
  have main : ∀ r : Fin n,
      (∀ v, bfsGo g pred maxD (bfsMeasure g [(some r, 0)] []) [(some r, 0)] [] = some v →
        pred v = true ∧ ∃ d, Reach g r v d ∧ d ≤ maxD ∧
          ∀ u k, k < d → k ≤ maxD → Reach g r u k → pred u = false) ∧
      (bfsGo g pred maxD (bfsMeasure g [(some r, 0)] []) [(some r, 0)] [] = none →
        ∀ u k, k ≤ maxD → Reach g r u k → pred u = false) := by
    intro r
    refine bfsGo_spec g pred maxD r _ [(some r, 0)] [] (le_refl _) ?_ ?_ ?_ ?_ ?_ ?_
    · intro e he w hew
      rcases List.mem_singleton.mp he with rfl
      have h2 : w = r := by
        injection hew with h
        exact h.symm
      refine ⟨?_, Nat.zero_le _⟩
      rw [h2]
      exact Reach.refl r
    · intro e he
      exact absurd he (List.not_mem_nil _)
    · intro es hes
      exact absurd hes (List.not_mem_nil _)
    · constructor
      · exact List.sorted_singleton _
      · intro e0 he0 e2 he2
        rcases List.mem_singleton.mp he2 with rfl
        omega
    · intro es hes
      exact absurd hes (List.not_mem_nil _)
    · intro u k hk hr
      exact Or.inr ⟨r, 0, k, List.mem_singleton.mpr rfl, rfl, hr, by omega⟩
  refine ⟨?_, ?_, ?_, fun h => by rw [h]; rfl, ?_⟩
  · intro r v hroot hres
    subst hroot
    exact (main r).1 v hres
  · intro r hroot hres
    subst hroot
    exact (main r).2 hres
  · intro r hroot hnone
    subst hroot
    cases hres : findNestedObject g pred maxD (some r) with
    | none => rfl
    | some v =>
      have h1 := (main r).1 v hres
      obtain ⟨hp, d, hrd, hdm, _⟩ := h1
      exact absurd hp (by rw [hnone v d hdm hrd]; exact fun hc => Bool.noConfusion hc)
  · intro v
    simp only [isLikelyPropertyPayload, Bool.and_eq_true, Bool.or_eq_true,
      Bool.not_eq_true', List.any_eq_true, decide_eq_true_eq]
    rw [or_assoc]

/-- C9 witness: on a concrete cyclic three-node graph the locator
returns the payload node, and the claim theorem's guarantees apply to
it. -/
theorem C9_witness :
    findNestedObject G3 (isLikelyPropertyPayload G3) 6 (some 0) = some 1 ∧
    (isLikelyPropertyPayload G3 (1 : Fin 3) = true ∧
      ∃ d, Reach G3 0 1 d ∧ d ≤ 6 ∧
        ∀ u k, k < d → k ≤ 6 → Reach G3 0 u k → isLikelyPropertyPayload G3 u = false) :=
  ⟨by decide,
   (C9_findNestedObject_bfs 3 G3 (isLikelyPropertyPayload G3) 6 (some 0)).1 0 1 rfl
     (by decide)⟩


end Rightmove
